import Mathlib

/-!
Verification of the contour control-plane core against its natural-language
specification. Each component referenced by the spec claims is embedded
shallowly: pure Go functions become Lean functions, Go maps become
association lists (content plus an explicit, unspecified iteration order),
and effectful methods are modelled by the list of recompute/notify effects
they perform. Definitions follow the Go source; functions whose
implementation is not part of the given sources are modelled from the spec
and marked as such in their doc comments.
-/

namespace Spec2Proof

/-- Go strings at character granularity (identical to byte granularity for
the ASCII data these components manipulate); a list representation gives
the slicing and length reasoning Go's `len` and `s[:n]` need. -/
abbrev GoStr := List Char

/-- A Lean string literal as a `GoStr`. -/
def goStr (s : String) : GoStr := s.data

/-- Decimal digit character. -/
def digitChar (d : Nat) : Char := Char.ofNat (48 + d)

/-- Decimal formatting of a natural number (the behaviour of Go's
`strconv.FormatInt(v, 10)` for non-negative v, which is external
standard-library code). -/
def formatInt (n : Nat) : GoStr :=
  if n = 0 then goStr "0" else (Nat.digits 10 n).reverse.map digitChar

/-- Decimal reading of a digit string, the inverse of `formatInt`. -/
def parseDec (s : GoStr) : Nat :=
  s.foldl (fun a c => a * 10 + (c.toNat - 48)) 0

/-! ## Timeout policy (internal/dag/policy.go) -/

namespace policy

/-- Shallow embedding of `parseTimeout` from internal/dag/policy.go.
Durations are nanosecond counts (`Int`), as in Go's `time.Duration`.
`time.ParseDuration` is Go standard-library code, external to this
repository, so it is passed in abstractly as a function returning `none`
exactly when parsing fails. -/
def parseTimeout (parseDuration : String → Option Int) (timeout : String) : Int :=
  if timeout = "" then
    -- Blank is interpreted as no timeout specified, use envoy defaults.
    0
  else if timeout = "infinity" then
    -- "infinity" is interpreted explicitly as an infinite timeout.
    -1
  else
    match parseDuration timeout with
    | none => -1
    | some d => d

end policy

/-! ## Kubernetes object model (fields used by the translator and the DAG) -/

/-- Name/namespace key of a Kubernetes object (`meta` in the dag package,
`metadata` in the contour package). -/
structure meta' where
  name : String
  ns : String
  deriving DecidableEq, Repr

/-- Go's intstr.IntOrString, used for Ingress backend service ports. -/
inductive IntOrString
  | int (v : Int)
  | str (v : String)
  deriving DecidableEq, Repr

/-- intstr.IntOrString.IntValue: the int value, or the parsed string value
(0 when the string does not parse), as in Go's strconv.Atoi fallback. -/
def IntOrString.intValue : IntOrString → Int
  | .int v => v
  | .str v => (v.toInt?).getD 0

/-- intstr.IntOrString.String. -/
def IntOrString.toStr : IntOrString → String
  | .int v => toString v
  | .str v => v

structure IngressBackend where
  serviceName : String
  servicePort : IntOrString
  deriving DecidableEq, Repr

structure HTTPIngressPath where
  path : String
  backend : IngressBackend
  deriving DecidableEq, Repr

structure IngressRule where
  host : String
  paths : List HTTPIngressPath
  deriving DecidableEq, Repr

structure IngressTLS where
  hosts : List String
  secretName : String
  deriving DecidableEq, Repr

/-- v1beta1.Ingress, restricted to the fields the embedded code reads. -/
structure Ingress where
  name : String
  ns : String
  annots : List (String × String)
  backend : Option IngressBackend
  tls : List IngressTLS
  rules : List IngressRule
  deriving DecidableEq, Repr

structure ServicePort where
  name : String
  port : Int
  deriving DecidableEq, Repr

structure Service where
  name : String
  ns : String
  ports : List ServicePort
  deriving DecidableEq, Repr

structure Secret where
  name : String
  ns : String
  deriving DecidableEq, Repr

structure EndpointSubset where
  addresses : List String
  ports : List Int
  deriving DecidableEq, Repr

structure Endpoints where
  name : String
  ns : String
  subsets : List EndpointSubset
  deriving DecidableEq, Repr

/-! ## Translator event handlers (contour package) -/

namespace translator

/-- The recompute / notification effects a translator handler can perform;
handlers are modelled as the ordered list of effects they run. -/
inductive Effect
  | recomputeCLA
  | recomputeListeners
  | recomputevhost (host : String)
  | notifyVHosts
  deriving DecidableEq, Repr

/-- The parts of translatorCache the embedded handlers read. -/
structure TranslatorCache where
  services : List (meta' × Service)
  endpoints : List (meta' × Endpoints)
  deriving Repr

/-- Shallow embedding of `Translator.addEndpoints`: an Endpoints object with
no subsets is ignored (no recompute, no notification), one whose service is
not cached is ignored, otherwise the ClusterLoadAssignment is recomputed. -/
def addEndpoints (cache : TranslatorCache) (e : Endpoints) : List Effect :=
  if e.subsets.length < 1 then
    -- if there are no endpoints in this object, ignore it to avoid
    -- sending a noop notification to watchers.
    []
  else if (cache.services.lookup ⟨e.name, e.ns⟩).isNone then
    []
  else
    [.recomputeCLA]

/-- The effects `Translator.addIngress` runs once the ingress class has been
admitted: recompute the listeners, recompute each named vhost, and finally
(as the deferred call) notify the vhost cache watchers. -/
def addIngressBody (i : Ingress) : List Effect :=
  .recomputeListeners ::
    ((if i.backend.isSome then [Effect.recomputevhost "*"] else []) ++
     i.rules.map (fun r => Effect.recomputevhost (if r.host = "" then "*" else r.host)) ++
     [Effect.notifyVHosts])

/-- Shallow embedding of `Translator.addIngress`: if the
kubernetes.io/ingress.class annotation is present and differs from
"contour", the ingress is ignored and nothing is recomputed. -/
def addIngress (i : Ingress) : List Effect :=
  match i.annots.lookup "kubernetes.io/ingress.class" with
  | some cls => if cls ≠ "contour" then [] else addIngressBody i
  | none => addIngressBody i

/-- The well-known default ingress class. -/
def DEFAULT_INGRESS_CLASS_NAME : String := "contour"

/-- Modelled from the spec: the annotation package's ingress-class reader
(`IngressClass`) is not among the given sources, only its matrix test.
Per the spec's glossary an ingress-class is read from the object's
ingress-class annotation; the projectcontour.io key takes precedence over
the legacy kubernetes.io key, and an unannotated object has the empty
class. -/
def ingressClassOf (annots : List (String × String)) : String :=
  match annots.lookup "projectcontour.io/ingress.class" with
  | some cls => cls
  | none =>
    match annots.lookup "kubernetes.io/ingress.class" with
    | some cls => cls
    | none => ""

/-- Modelled from the spec: `MatchesIngressClass` of the annotation package
is not among the given sources, only its matrix test. Per the spec, an
object is admitted when its ingress-class annotation matches the configured
class, and an empty configured class matches the well-known default class. -/
def matchesIngressClass (annots : List (String × String)) (ic : String) : Bool :=
  if ingressClassOf annots = ic then
    true
  else if ingressClassOf annots = DEFAULT_INGRESS_CLASS_NAME ∧ ic = "" then
    true
  else
    false

end translator

/-! ## Status writer condition merge (HTTPRouteUpdate.Mutate) -/

namespace status

/-- metav1.Condition, with times and generations as integers. -/
structure Condition where
  type_ : String
  status : String
  reason : String
  message : String
  observedGeneration : Int
  lastTransitionTime : Int
  deriving DecidableEq, Repr

/-- The content comparison used by `HTTPRouteUpdate.Mutate`: status, reason,
message and type of the new condition against an existing condition. -/
def contentEq (cond existingCond : Condition) : Bool :=
  cond.status = existingCond.status ∧
  cond.reason = existingCond.reason ∧
  cond.message = existingCond.message ∧
  cond.type_ = existingCond.type_

/-- The inner loop of `HTTPRouteUpdate.Mutate` for one newly calculated
condition: walking the existing conditions in order, whenever the content
matches or the existing observation is newer, the existing condition's
observedGeneration and lastTransitionTime are copied onto the new one. -/
def mutateCond (existing : List Condition) (cond : Condition) : Condition :=
  existing.foldl
    (fun c e =>
      if contentEq c e ∨ e.observedGeneration > c.observedGeneration then
        { c with
          observedGeneration := e.observedGeneration
          lastTransitionTime := e.lastTransitionTime }
      else c)
    cond

/-- The conditions `HTTPRouteUpdate.Mutate` persists (`conditionsToWrite`):
each newly calculated condition merged against the existing conditions. -/
def mutateConditions (existing newConds : List Condition) : List Condition :=
  newConds.map (mutateCond existing)

/-- One merge step of `mutateCond`. -/
def mutateStep (c e : Condition) : Condition :=
  if contentEq c e ∨ e.observedGeneration > c.observedGeneration then
    { c with
      observedGeneration := e.observedGeneration
      lastTransitionTime := e.lastTransitionTime }
  else c

end status

/-! ## xDS gRPC stream state machines (grpc package, two generations) -/

namespace grpc

/-- A serialized resource of one type as carried in a DiscoveryResponse
(`types.Any` produced from a cache value); `name` is the resource name the
request filter applies to. -/
structure Resource where
  name : String
  body : String
  deriving DecidableEq, Repr

/-- `toFilter`: an empty resource-name list matches everything, otherwise
only the listed names match. -/
def toFilter (names : List String) : String → Bool :=
  if names = [] then fun _ => true else fun n => names.contains n

structure DiscoveryResponse where
  versionInfo : GoStr
  resources : List Resource
  nonce : GoStr
  deriving DecidableEq, Repr

/-- The later stream loop (`grpcServer.stream`) for one received request:
`events` carries, for each cache-change notification in order, the cache
contents (`Values`) at that moment. The filtered resources are computed;
an empty filtered result is skipped ("skipping update"), anything else is
sent with the constant version_info "0" and nonce "0" the code puts in
every response. -/
def streamSends (resourceNames : List String) (events : List (List Resource)) :
    List DiscoveryResponse :=
  events.filterMap (fun vals =>
    let resources := vals.filter (fun r => toFilter resourceNames r.name)
    if resources.length = 0 then none
    else some ⟨goStr "0", resources, goStr "0"⟩)

/-- One notification received by the earlier stream loop `stream0`: the new
cache version received on the channel and the cache contents fetched for
the response. -/
structure Notification where
  version : Nat
  snapshot : List Resource
  deriving DecidableEq, Repr

/-- The earlier stream loop (`stream0`): every notification produces a
response carrying the received cache version as version_info and a nonce
that starts at 0 and increments after every send; no empty-result
suppression and no filtering. -/
def stream0Sends (events : List Notification) : List DiscoveryResponse :=
  events.enum.map (fun p => ⟨formatInt p.2.version, p.2.snapshot, formatInt p.1⟩)

end grpc

/-! ## SHA-256 (crypto/sha256, the hash used by hashname)

Go's crypto/sha256 is standard-library code; it is embedded here as the
FIPS 180-4 algorithm over naturals, with 32-bit words as `Nat` reduced
mod 2^32, and validated below against the standard "abc" test vector. -/

namespace sha256

def w32 (n : Nat) : Nat := n % 4294967296

def wadd (a b : Nat) : Nat := w32 (a + b)

def rotr (k n : Nat) : Nat := w32 (Nat.lor (Nat.shiftRight n k) (Nat.shiftLeft n (32 - k)))

def shr (k n : Nat) : Nat := Nat.shiftRight n k

/-- Bitwise complement on 32-bit words. -/
def wnot (n : Nat) : Nat := 4294967295 - n

def K : List Nat :=
  [1116352408, 1899447441, 3049323471, 3921009573, 961987163,
   1508970993, 2453635748, 2870763221, 3624381080, 310598401,
   607225278, 1426881987, 1925078388, 2162078206, 2614888103,
   3248222580, 3835390401, 4022224774, 264347078, 604807628,
   770255983, 1249150122, 1555081692, 1996064986, 2554220882,
   2821834349, 2952996808, 3210313671, 3336571891, 3584528711,
   113926993, 338241895, 666307205, 773529912, 1294757372,
   1396182291, 1695183700, 1986661051, 2177026350, 2456956037,
   2730485921, 2820302411, 3259730800, 3345764771, 3516065817,
   3600352804, 4094571909, 275423344, 430227734, 506948616,
   659060556, 883997877, 958139571, 1322822218, 1537002063,
   1747873779, 1955562222, 2024104815, 2227730452, 2361852424,
   2428436474, 2756734187, 3204031479, 3329325298]

def H0 : List Nat :=
  [1779033703, 3144134277, 1013904242, 2773480762, 1359893119,
   2600822924, 528734635, 1541459225]

/-- Big-endian 8-byte encoding of the bit length. -/
def be64 (n : Nat) : List Nat :=
  (List.range 8).map (fun i => shr (8 * (7 - i)) n % 256)

/-- FIPS padding: 0x80, zeros to 56 mod 64, then the 64-bit bit length. -/
def pad (msg : List Nat) : List Nat :=
  let len := msg.length
  let zeros := (119 - (len % 64)) % 64
  msg ++ 128 :: (List.replicate zeros 0 ++ be64 (8 * len))

def chunksGo (l : List Nat) : Nat → List (List Nat)
  | 0 => []
  | fuel + 1 => if l = [] then [] else l.take 64 :: chunksGo (l.drop 64) fuel

def chunks (l : List Nat) : List (List Nat) := chunksGo l l.length

/-- The i-th big-endian 32-bit word of a 64-byte block. -/
def word (block : List Nat) (i : Nat) : Nat :=
  block.getD (4 * i) 0 * 16777216 + block.getD (4 * i + 1) 0 * 65536 +
    block.getD (4 * i + 2) 0 * 256 + block.getD (4 * i + 3) 0

/-- Message-schedule extension from 16 to 64 words. -/
def scheduleGo (w : List Nat) : Nat → List Nat
  | 0 => w
  | n + 1 =>
    let i := w.length
    let x15 := w.getD (i - 15) 0
    let x2 := w.getD (i - 2) 0
    let s0 := Nat.xor (rotr 7 x15) (Nat.xor (rotr 18 x15) (shr 3 x15))
    let s1 := Nat.xor (rotr 17 x2) (Nat.xor (rotr 19 x2) (shr 10 x2))
    scheduleGo (w ++ [wadd (wadd (w.getD (i - 16) 0) s0) (wadd (w.getD (i - 7) 0) s1)]) n

/-- One round of the SHA-256 compression function on the 8-word state. -/
def compressStep (st : List Nat) (kw : Nat × Nat) : List Nat :=
  let a := st.getD 0 0
  let b := st.getD 1 0
  let c := st.getD 2 0
  let d := st.getD 3 0
  let e := st.getD 4 0
  let f := st.getD 5 0
  let g := st.getD 6 0
  let h := st.getD 7 0
  let S1 := Nat.xor (rotr 6 e) (Nat.xor (rotr 11 e) (rotr 25 e))
  let ch := Nat.xor (Nat.land e f) (Nat.land (wnot e) g)
  let temp1 := wadd (wadd (wadd h S1) (wadd ch kw.1)) kw.2
  let S0 := Nat.xor (rotr 2 a) (Nat.xor (rotr 13 a) (rotr 22 a))
  let maj := Nat.xor (Nat.land a b) (Nat.xor (Nat.land a c) (Nat.land b c))
  let temp2 := wadd S0 maj
  [wadd temp1 temp2, a, b, c, wadd d temp1, e, f, g]

def compressBlock (h : List Nat) (block : List Nat) : List Nat :=
  let w := scheduleGo ((List.range 16).map (word block)) 48
  let st := (K.zip w).foldl compressStep h
  h.zipWith wadd st

def be32 (n : Nat) : List Nat :=
  [shr 24 n % 256, shr 16 n % 256, shr 8 n % 256, n % 256]

/-- The 32 digest bytes of a byte message. -/
def sha256bytes (msg : List Nat) : List Nat :=
  ((chunks (pad msg)).foldl compressBlock H0).flatMap be32

def hexDigit (d : Nat) : Char := if d < 10 then Char.ofNat (48 + d) else Char.ofNat (87 + d)

def byteHex (b : Nat) : GoStr := [hexDigit (b / 16), hexDigit (b % 16)]

/-- The lowercase hex digest, as produced by fmt.Sprintf("%x", sha256.Sum256(b)). -/
def sha256hex (msg : List Nat) : GoStr := (sha256bytes msg).flatMap byteHex

/-- UTF-8 bytes of one character. -/
def charBytes (c : Char) : List Nat :=
  let n := c.toNat
  if n < 128 then [n]
  else if n < 2048 then [192 + n / 64, 128 + n % 64]
  else if n < 65536 then [224 + n / 4096, 128 + (n / 64) % 64, 128 + n % 64]
  else [240 + n / 262144, 128 + (n / 4096) % 64, 128 + (n / 64) % 64, 128 + n % 64]

/-- The UTF-8 bytes of a Go string (Go strings are byte slices; []byte(s)). -/
def utf8Bytes (s : GoStr) : List Nat := s.flatMap charBytes

end sha256

/-! ## Cluster-name hashing (contour package: hashname, truncate, min) -/

namespace contour

/-- The contour package's `min` on ints. -/
def min (a b : Nat) : Nat := if a > b then b else a

/-- `truncate` truncates s to l length by replacing the end of s with
-suffix. -/
def truncate (l : Nat) (s suffix : GoStr) : GoStr :=
  if l ≥ s.length then
    -- under the limit, nothing to do
    s
  else if l ≤ suffix.length then
    -- easy case, just return the start of the suffix
    suffix.take (min l suffix.length)
  else
    s.take (l - suffix.length - 1) ++ '-' :: suffix

/-- strings.Join(s, "/"). -/
def joinSlash (s : List GoStr) : GoStr := List.intercalate [ '/' ] s

/-- The truncation loop of `hashname`: starting from the last component,
replace each component via `truncate` (with the short hash suffix) and
return as soon as the joined length is under the limit; when every
component has been truncated and the result is still too long, return the
hash itself truncated to l. -/
def hashnameLoop (l per : Nat) (suffix hash : GoStr) : Nat → List GoStr → GoStr
  | 0, _ => hash.take (min hash.length l)
  | n + 1, s =>
    let s' := s.set n (truncate per (s.getD n []) suffix)
    let r := joinSlash s'
    if l > r.length then r else hashnameLoop l per suffix hash n s'

/-- `hashname` takes a length l and components s and returns a string whose
length does not exceed l: the components joined with "/" if strictly under
the limit, otherwise tail-first truncation against a short SHA-256-derived
suffix, otherwise the truncated SHA-256 hash of the joined string. The
short-hash length is 6. -/
def hashname (l : Nat) (s : List GoStr) : GoStr :=
  let r := joinSlash s
  if l > r.length then
    -- we're under the limit, nothing to do
    r
  else
    let hash := sha256.sha256hex (sha256.utf8Bytes r)
    hashnameLoop l (l / s.length) (hash.take 6) hash s.length s

end contour

/-! ## Route sorter (internal/sorter)

The sorter implementation is not among the given sources — only its test
suite — so the route comparator is modelled from the spec's §4.2 ordering,
adjusted where the repository's own tests pin a different rule, and
validated against those tests below. Routes carry the envoy v3 fields the
comparator reads: the path specifier and the header matchers. -/

namespace sorter

inductive PathSpec
  | pfx (s : GoStr)
  | exact (s : GoStr)
  | regex (s : GoStr)
  deriving DecidableEq, Repr

inductive HeaderSpec
  | exactMatch (v : GoStr)
  | presentMatch
  deriving DecidableEq, Repr

structure HeaderMatcher where
  name : GoStr
  spec : HeaderSpec
  deriving DecidableEq, Repr

structure RouteV3 where
  path : PathSpec
  headers : List HeaderMatcher
  deriving DecidableEq, Repr

/-- The protobuf text representation of a header matcher (what the tests
call "the protobuf string"): the name field followed by the match
specifier, in field order. -/
def protoStr (m : HeaderMatcher) : GoStr :=
  goStr "name:\"" ++ m.name ++
    (match m.spec with
     | .exactMatch v => goStr "\" exact_match:\"" ++ v ++ goStr "\""
     | .presentMatch => goStr "\" present_match:true")

/-- Lexicographic (byte-wise) strict comparison of Go strings, as in
strings.Compare < 0. -/
def lexLt : GoStr → GoStr → Bool
  | [], [] => false
  | [], _ :: _ => true
  | _ :: _, [] => false
  | a :: s, b :: t => if a < b then true else if b < a then false else lexLt s t

/-- regex sorts before exact sorts before prefix. -/
def kindRank : PathSpec → Nat
  | .regex _ => 0
  | .exact _ => 1
  | .pfx _ => 2

def pathStr : PathSpec → GoStr
  | .regex s => s
  | .exact s => s
  | .pfx s => s

/-- Header matchers are ordered by name, then by the protobuf string
(cf. TestSortHeaderMatchers: with equal names, "exact" is less than
"present" because of the protobuf text). -/
def headerMatcherLt (a b : HeaderMatcher) : Bool :=
  if lexLt a.name b.name then true
  else if lexLt b.name a.name then false
  else lexLt (protoStr a) (protoStr b)

/-- Element-wise comparison of two header-matcher lists (used between
routes with the same number of header conditions). -/
def headerListLt : List HeaderMatcher → List HeaderMatcher → Bool
  | [], [] => false
  | [], _ :: _ => true
  | _ :: _, [] => false
  | a :: s, b :: t =>
    if headerMatcherLt a b then true
    else if headerMatcherLt b a then false
    else headerListLt s t

/-- The route comparator validated by the repository's sorter tests:
path-match kind (regex, exact, prefix), then path length longer first,
then header-condition count more first, then the header matchers compared
element-wise (name, then protobuf text). -/
def routeLess (a b : RouteV3) : Bool :=
  if kindRank a.path ≠ kindRank b.path then decide (kindRank a.path < kindRank b.path)
  else if (pathStr a.path).length ≠ (pathStr b.path).length then
    decide ((pathStr b.path).length < (pathStr a.path).length)
  else if a.headers.length ≠ b.headers.length then
    decide (b.headers.length < a.headers.length)
  else headerListLt a.headers b.headers

/-- The total protobuf-text length of a route's header matchers. -/
def headersTotalLen (a : RouteV3) : Nat := (a.headers.map (fun m => (protoStr m).length)).sum

/-- The comparator exactly as the claim words it: kind, then path length
longer first, then header count more first, then TOTAL lexicographic
length of the header matchers longer first. -/
def claimRouteLess (a b : RouteV3) : Bool :=
  if kindRank a.path ≠ kindRank b.path then decide (kindRank a.path < kindRank b.path)
  else if (pathStr a.path).length ≠ (pathStr b.path).length then
    decide ((pathStr b.path).length < (pathStr a.path).length)
  else if a.headers.length ≠ b.headers.length then
    decide (b.headers.length < a.headers.length)
  else decide (headersTotalLen b < headersTotalLen a)

/-- sort.Stable with a strict Less: a stable insertion sort, expressed via
Mathlib's insertionSort over the no-inversion relation. -/
def sortRoutes (l : List RouteV3) : List RouteV3 :=
  l.insertionSort (fun a b => routeLess b a = false)

/-- The four routes of TestSortRoutesLongestHeaders, in the order the test
requires the sorter to produce. -/
def routeA : RouteV3 :=
  ⟨.pfx (goStr "/path"), [⟨goStr "header-name", .exactMatch (goStr "header-value")⟩]⟩

def routeB : RouteV3 :=
  ⟨.pfx (goStr "/path"), [⟨goStr "header-name", .presentMatch⟩]⟩

def routeC : RouteV3 :=
  ⟨.pfx (goStr "/path"),
    [⟨goStr "long-header-name", .exactMatch (goStr "long-header-value")⟩]⟩

def routeD : RouteV3 := ⟨.pfx (goStr "/path"), []⟩

end sorter

/-! ## DAG (part_007: the dag package) -/

structure IRService where
  name : String
  port : Int
  deriving DecidableEq, Repr

structure IRRoute where
  match_ : String
  services : List IRService
  deriving DecidableEq, Repr

structure IngressRouteTLS where
  secretName : String
  deriving DecidableEq, Repr

structure IngressRouteVHost where
  fqdn : String
  tls : Option IngressRouteTLS
  deriving DecidableEq, Repr

structure IngressRoute where
  name : String
  ns : String
  virtualHost : Option IngressRouteVHost
  routes : List IRRoute
  deriving DecidableEq, Repr


namespace dag

structure SvcVertex where
  object : Service
  deriving DecidableEq, Repr

structure SecretVertex where
  object : Secret
  deriving DecidableEq, Repr

inductive RouteObject
  | ing (i : Ingress)
  | ir (r : IngressRoute)
  deriving DecidableEq, Repr

structure Route where
  path : String
  object : RouteObject
  services : List (meta' × SvcVertex)
  backend : Option IngressBackend
  deriving DecidableEq, Repr

structure VirtualHost where
  Port : Int
  host : String
  routes : List (String × Route)
  secrets : List (meta' × SecretVertex)
  deriving DecidableEq, Repr

structure hostport where
  host : String
  port : Int
  deriving DecidableEq, Repr

def putKV {α β : Type} [DecidableEq α] (l : List (α × β)) (k : α) (v : β) : List (α × β) :=
  if (l.lookup k).isSome then l.map (fun p => if p.1 = k then (p.1, v) else p)
  else l ++ [(k, v)]

def removeKV {α β : Type} [DecidableEq α] (l : List (α × β)) (k : α) : List (α × β) :=
  l.filter (fun p => p.1 ≠ k)

/-- The DAG's cached Go maps as association lists. A list represents one
run's view of a Go map: its pairs are the map content, and its order is
the iteration order that run observes where the code ranges over the map.
`recompute` ranges over `d.ingresses` and `d.ingressroutes` (so two runs
on the same content differ by a permutation of those two lists, Go
randomizing map iteration per run) and reads `d.secrets` / `d.services`
only by key (so their order is never observable). -/
structure DAGState where
  ingresses : List (meta' × Ingress)
  ingressroutes : List (meta' × IngressRoute)
  secrets : List (meta' × Secret)
  services : List (meta' × Service)
  deriving DecidableEq, Repr

inductive K8sObject
  | sec (s : Secret)
  | svc (s : Service)
  | ing (i : Ingress)
  | ir (r : IngressRoute)
  deriving DecidableEq, Repr

def DAGState.Insert (d : DAGState) : K8sObject → DAGState
  | .sec s => { d with secrets := putKV d.secrets ⟨s.name, s.ns⟩ s }
  | .svc s => { d with services := putKV d.services ⟨s.name, s.ns⟩ s }
  | .ing i => { d with ingresses := putKV d.ingresses ⟨i.name, i.ns⟩ i }
  | .ir r => { d with ingressroutes := putKV d.ingressroutes ⟨r.name, r.ns⟩ r }

def DAGState.remove (d : DAGState) : K8sObject → DAGState
  | .sec s => { d with secrets := removeKV d.secrets ⟨s.name, s.ns⟩ }
  | .svc s => { d with services := removeKV d.services ⟨s.name, s.ns⟩ }
  | .ing i => { d with ingresses := removeKV d.ingresses ⟨i.name, i.ns⟩ }
  | .ir r => { d with ingressroutes := removeKV d.ingressroutes ⟨r.name, r.ns⟩ }

def lookupService (d : DAGState) (m : meta') : Option SvcVertex :=
  (d.services.lookup m).map (fun svc => ⟨svc⟩)

def lookupSecret (d : DAGState) (m : meta') : Option SecretVertex :=
  (d.secrets.lookup m).map (fun sec => ⟨sec⟩)

def newVhost (host : String) (port : Int) : VirtualHost := ⟨port, host, [], []⟩

def vhostUpd (l : List (hostport × VirtualHost)) (host : String) (port : Int)
    (f : VirtualHost → VirtualHost) : List (hostport × VirtualHost) :=
  if (l.lookup ⟨host, port⟩).isSome then
    l.map (fun p => if p.1 = (⟨host, port⟩ : hostport) then (p.1, f p.2) else p)
  else l ++ [(⟨host, port⟩, f (newVhost host port))]

def httpAllowed (i : Ingress) : Bool :=
  i.annots.lookup "kubernetes.io/ingress.allow-http" ≠ some "false"

def resolvePorts (d : DAGState) (ns : String) (b : IngressBackend) :
    List (meta' × SvcVertex) :=
  match lookupService d ⟨b.serviceName, ns⟩ with
  | none => []
  | some s =>
    s.object.ports.foldl
      (fun acc p =>
        if b.servicePort.intValue = p.port ∨ b.servicePort.toStr = p.name then
          putKV acc ⟨s.object.name, s.object.ns⟩ s
        else acc)
      []

def irRouteServices (d : DAGState) (ns : String) (svcs : List IRService) :
    List (meta' × SvcVertex) :=
  svcs.foldl
    (fun acc s =>
      match lookupService d ⟨s.name, ns⟩ with
      | none => acc
      | some sv =>
        sv.object.ports.foldl
          (fun acc2 p =>
            if s.port = p.port then putKV acc2 ⟨sv.object.name, sv.object.ns⟩ sv else acc2)
          acc)
    []

def addRouteToVhost (acc : List (hostport × VirtualHost)) (host : String) (port : Int)
    (r : Route) : List (hostport × VirtualHost) :=
  vhostUpd acc host port (fun vh => { vh with routes := putKV vh.routes r.path r })

def addSecretToVhost (acc : List (hostport × VirtualHost)) (host : String) (port : Int)
    (sec : SecretVertex) : List (hostport × VirtualHost) :=
  vhostUpd acc host port
    (fun vh => { vh with secrets := putKV vh.secrets ⟨sec.object.name, sec.object.ns⟩ sec })

def processIngress (d : DAGState) (acc0 : List (hostport × VirtualHost)) (ing : Ingress) :
    List (hostport × VirtualHost) :=
  let httpOk := httpAllowed ing
  let acc1 :=
    match ing.backend with
    | some b =>
      let r : Route := ⟨"/", .ing ing, resolvePorts d ing.ns b, some b⟩
      if httpOk then addRouteToVhost acc0 "*" 80 r else acc0
    | none => acc0
  let acc2 :=
    ing.tls.foldl
      (fun acc tls =>
        match lookupSecret d ⟨tls.secretName, ing.ns⟩ with
        | some sec => tls.hosts.foldl (fun a host => addSecretToVhost a host 443 sec) acc
        | none => acc)
      acc1
  ing.rules.foldl
    (fun acc rule =>
      let host := if rule.host = "" then "*" else rule.host
      rule.paths.foldl
        (fun accp p =>
          let path := if p.path = "" then "/" else p.path
          let r : Route := ⟨path, .ing ing, resolvePorts d ing.ns p.backend, some p.backend⟩
          let acc3 := if httpOk then addRouteToVhost accp host 80 r else accp
          if (acc3.lookup ⟨host, 443⟩).isSome ∧ host ≠ "*" then
            addRouteToVhost acc3 host 443 r
          else acc3)
        acc)
    acc2

def processIngressRoute (d : DAGState) (acc0 : List (hostport × VirtualHost))
    (ir : IngressRoute) : List (hostport × VirtualHost) :=
  match ir.virtualHost with
  | none => acc0
  | some vh =>
    let acc1 :=
      match vh.tls with
      | some tls =>
        match lookupSecret d ⟨tls.secretName, ir.ns⟩ with
        | some sec => addSecretToVhost acc0 vh.fqdn 443 sec
        | none => acc0
      | none => acc0
    ir.routes.foldl
      (fun acc route =>
        let path := if route.match_ = "" then "/" else route.match_
        let r : Route := ⟨path, .ir ir, irRouteServices d ir.ns route.services, none⟩
        addRouteToVhost acc vh.fqdn 80 r)
      acc1

/-- The `_vhosts` table built by one run of `recompute`: the ingresses are
processed in the order of `d.ingresses` and the ingressroutes in the order
of `d.ingressroutes` — i.e. in that run's (randomized) Go map iteration
orders, which the list orders of the snapshot represent. The table CONTENT
depends on those orders when cached objects collide: `routes[path]`
assignment is last-write-wins across ingresses sharing a (host, path), and
the `_vhosts[{host, 443}]` existence check in the rules loop sees whatever
earlier-iterated ingresses created. -/
def recomputeVhosts (d : DAGState) : List (hostport × VirtualHost) :=
  let withIng := d.ingresses.foldl (fun acc p => processIngress d acc p.2) []
  d.ingressroutes.foldl (fun acc p => processIngressRoute d acc p.2) withIng

def vhostKeys (d : DAGState) : List hostport := (recomputeVhosts d).map Prod.fst

/-- The roots appended by `recompute`: an enumeration of the finished
`_vhosts` table in the unspecified order of a Go map range, given as the
`order` argument (any permutation of the table's keys). -/
def recomputeRoots (d : DAGState) (order : List hostport) : List VirtualHost :=
  order.filterMap (fun hp => (recomputeVhosts d).lookup hp)


/-- Whether the cache already holds an object of o's kind under o's key. -/
def keyFree (d : DAGState) : K8sObject → Prop
  | .sec s => d.secrets.lookup ⟨s.name, s.ns⟩ = none
  | .svc s => d.services.lookup ⟨s.name, s.ns⟩ = none
  | .ing i => d.ingresses.lookup ⟨i.name, i.ns⟩ = none
  | .ir r => d.ingressroutes.lookup ⟨r.name, r.ns⟩ = none

def strData (s : String) : List Char := s.data

def vhLt (a b : VirtualHost) : Bool :=
  if sorter.lexLt (strData a.host) (strData b.host) then true
  else if sorter.lexLt (strData b.host) (strData a.host) then false
  else decide (a.Port < b.Port)

def sortRoots (l : List VirtualHost) : List VirtualHost :=
  l.insertionSort (fun a b => vhLt b a = false)

def vhKey (vh : VirtualHost) : List Char × Int := (strData vh.host, vh.Port)

/-- Invariant of the vhost table: keys are distinct, and every entry's
host/Port fields agree with its key. -/
def vhTableInv (l : List (hostport × VirtualHost)) : Prop :=
  ((l.map Prod.fst).Nodup) ∧ ∀ p ∈ l, p.2.host = p.1.host ∧ p.2.Port = p.1.port


/-- An ingress with rules for two hosts: its cache state yields a vhost
table with two entries, making the root enumeration order observable. -/
def twoHostIngress : Ingress :=
  ⟨"ing", "default", [], none, [],
    [⟨"a", [⟨"/", ⟨"svc", .int 80⟩⟩]⟩, ⟨"b", [⟨"/", ⟨"svc", .int 80⟩⟩]⟩]⟩

def twoHostState : DAGState := ⟨[(⟨"ing", "default"⟩, twoHostIngress)], [], [], []⟩

/-- A cache state holding a service with port 80 and an ingress whose
default backend resolves to it. -/
def stateWithSvc : DAGState :=
  ⟨[(⟨"ing", "default"⟩, ⟨"ing", "default", [], some ⟨"svc", .int 80⟩, [], []⟩)], [], [],
    [(⟨"svc", "default"⟩, ⟨"svc", "default", [⟨"http", 80⟩]⟩)]⟩

/-- A service under the same key as the one cached in `stateWithSvc`, but
with no ports: inserting it overwrites the cached service. -/
def portlessSvc : K8sObject := .svc ⟨"svc", "default", []⟩

/-- Two distinct cached ingresses both claiming host "h", path "/", with
different backends: their `routes["/"]` writes collide, so the vhost-table
content depends on which one the map range visits last. -/
def collidingIng1 : Ingress :=
  ⟨"ing1", "default", [], none, [], [⟨"h", [⟨"/", ⟨"svc1", .int 80⟩⟩]⟩]⟩

def collidingIng2 : Ingress :=
  ⟨"ing2", "default", [], none, [], [⟨"h", [⟨"/", ⟨"svc2", .int 80⟩⟩]⟩]⟩

/-- The colliding cache content under one iteration order of the ingress
map... -/
def collidingStateA : DAGState :=
  ⟨[(⟨"ing1", "default"⟩, collidingIng1), (⟨"ing2", "default"⟩, collidingIng2)], [], [], []⟩

/-- ...and the same content under the other iteration order. -/
def collidingStateB : DAGState :=
  ⟨[(⟨"ing2", "default"⟩, collidingIng2), (⟨"ing1", "default"⟩, collidingIng1)], [], [], []⟩

/-- `stateWithSvc` extended with a second cached service, so that a
non-trivial permutation of the services cache exists. -/
def twoSvcState : DAGState :=
  ⟨[(⟨"ing", "default"⟩, ⟨"ing", "default", [], some ⟨"svc", .int 80⟩, [], []⟩)], [], [],
    [(⟨"svc", "default"⟩, ⟨"svc", "default", [⟨"http", 80⟩]⟩),
     (⟨"svc2", "default"⟩, ⟨"svc2", "default", [⟨"http", 8080⟩]⟩)]⟩

end dag

end Spec2Proof

namespace Spec2Proof

/-! # Theorems -/

/-! ## Decimal formatting facts -/

theorem parseDec_append (s : GoStr) (c : Char) :
    parseDec (s ++ [c]) = parseDec s * 10 + (c.toNat - 48) := by
  unfold parseDec
  rw [List.foldl_append]
  rfl

theorem digitChar_toNat {d : Nat} (h : d < 10) : (digitChar d).toNat = 48 + d := by
  interval_cases d <;> decide

theorem parseDec_digits (L : List Nat) (h : ∀ d ∈ L, d < 10) :
    parseDec (L.reverse.map digitChar) = Nat.ofDigits 10 L := by
  induction L with
  | nil => rfl
  | cons d T ih =>
    have hd : d < 10 := h d (List.mem_cons_self d T)
    have hT : ∀ x ∈ T, x < 10 := fun x hx => h x (List.mem_cons_of_mem d hx)
    rw [List.reverse_cons, List.map_append, List.map_cons, List.map_nil,
      parseDec_append, ih hT, digitChar_toNat hd, Nat.ofDigits_cons]
    omega

theorem parseDec_formatInt (n : Nat) : parseDec (formatInt n) = n := by
  unfold formatInt
  by_cases h : n = 0
  · subst h
    decide
  · rw [if_neg h, parseDec_digits _ (fun d hd => Nat.digits_lt_base (by norm_num) hd),
      Nat.ofDigits_digits]

theorem formatInt_injective : Function.Injective formatInt :=
  Function.LeftInverse.injective parseDec_formatInt

theorem map_snd_enumFrom {α β : Type} (g : α → β) (i : Nat) (l : List α) :
    (List.enumFrom i l).map (fun p => g p.2) = l.map g := by
  induction l generalizing i with
  | nil => rfl
  | cons x t ih => simp [List.enumFrom, ih]

namespace grpc

theorem stream0Sends_versions (events : List Notification) :
    (stream0Sends events).map (fun resp => resp.versionInfo) =
      events.map (fun ev => formatInt ev.version) := by
  unfold stream0Sends
  rw [List.map_map, List.enum]
  exact map_snd_enumFrom (fun ev => formatInt ev.version) 0 events

theorem stream0Sends_nonces (events : List Notification) :
    (stream0Sends events).map (fun resp => resp.nonce) =
      (List.range events.length).map formatInt := by
  unfold stream0Sends
  rw [List.map_map]
  have : ((fun resp : DiscoveryResponse => resp.nonce) ∘
      fun p : Nat × Notification => ⟨formatInt p.2.version, p.2.snapshot, formatInt p.1⟩) =
      fun p : Nat × Notification => formatInt p.1 := rfl
  rw [this]
  have h2 : (fun p : Nat × Notification => formatInt p.1) =
      formatInt ∘ Prod.fst := rfl
  rw [h2, ← List.map_map, List.enum_map_fst]

/-- C4: corrected — in `grpcServer.stream` the empty-result suppression is
applied to every candidate update, from the very first one: a response is
sent only when the filtered resource list is non-empty, so no response on
the stream (first included) ever carries an empty resource list. -/
theorem C4_thm (names : List String) (events : List (List Resource)) :
    ∀ resp ∈ streamSends names events, resp.resources ≠ [] := by
  intro resp hresp
  unfold streamSends at hresp
  rw [List.mem_filterMap] at hresp
  obtain ⟨vals, _, hval⟩ := hresp
  by_cases hlen : (vals.filter (fun r => toFilter names r.name)).length = 0
  · simp only [hlen, if_pos] at hval
    cases hval
  · simp only [hlen, if_neg, reduceIte] at hval
    intro hres
    apply hlen
    have h := Option.some.inj hval
    rw [← h] at hres
    simp only at hres
    rw [hres]
    rfl

/-- C4 witness: the theorem applied to a concrete stream whose single
notification produces a non-empty filtered result. -/
theorem C4_witness :
    (⟨goStr "0", [⟨"a", "x"⟩], goStr "0"⟩ : DiscoveryResponse).resources ≠ [] :=
  C4_thm [] [[⟨"a", "x"⟩]] _ (by decide)

/-- C4 counterexample: the claim as stated fails on the code — on a cold
stream (no prior successful send) whose first filtered result is empty
(the cache holds only resource "b" while the peer subscribed to "a"),
`stream` suppresses the update and sends nothing, instead of sending the
first response with an empty resource list as the claim permits; so
suppression is NOT "only applied after the first successful send". -/
theorem C4_counterexample :
    streamSends ["a"] [[⟨"b", "x"⟩]] = [] ∧ ([⟨"b", "x"⟩] : List Resource) ≠ [] := by
  decide

/-- C5: corrected — the later stream (`grpcServer.stream`, part_005) stamps
the constant version_info "0" and nonce "0" on every response, so neither
strict version growth nor per-response nonce uniqueness holds there; in the
earlier `stream0` (part_006) the nonce starts at 0 and increments per
response (hence is unique within the stream), and version_info carries the
received cache version, strictly increasing whenever the notifications
deliver strictly increasing versions (the Register contract). -/
theorem C5_thm :
    (∀ (names : List String) (events : List (List Resource)),
      ∀ resp ∈ streamSends names events,
        resp.versionInfo = goStr "0" ∧ resp.nonce = goStr "0") ∧
    (∀ events : List Notification,
      ((stream0Sends events).map (fun resp => resp.nonce)).Nodup) ∧
    (∀ events : List Notification,
      (events.map (fun ev => ev.version)).Chain' (· < ·) →
      ((stream0Sends events).map (fun resp => parseDec resp.versionInfo)).Chain' (· < ·)) := by
  refine ⟨?_, ?_, ?_⟩
  · intro names events resp hresp
    unfold streamSends at hresp
    rw [List.mem_filterMap] at hresp
    obtain ⟨vals, _, hval⟩ := hresp
    by_cases hlen : (vals.filter (fun r => toFilter names r.name)).length = 0
    · simp only [hlen, if_pos] at hval
      cases hval
    · simp only [hlen, if_neg, reduceIte] at hval
      have h := Option.some.inj hval
      rw [← h]
      exact ⟨rfl, rfl⟩
  · intro events
    rw [stream0Sends_nonces]
    exact (List.nodup_range events.length).map formatInt_injective
  · intro events h
    have : (stream0Sends events).map (fun resp => parseDec resp.versionInfo) =
        events.map (fun ev => ev.version) := by
      have h1 : (stream0Sends events).map (fun resp => parseDec resp.versionInfo) =
          ((stream0Sends events).map (fun resp => resp.versionInfo)).map parseDec := by
        rw [List.map_map]
        rfl
      rw [h1, stream0Sends_versions, List.map_map]
      have : (parseDec ∘ fun ev : Notification => formatInt ev.version) =
          fun ev : Notification => ev.version := by
        funext ev
        exact parseDec_formatInt ev.version
      rw [this]
    rw [this]
    exact h

/-- C5 witness: the theorem applied to concrete streams — a response of the
later stream carries version "0"/nonce "0", and a two-notification run of
`stream0` with versions 1 < 2 yields strictly increasing version_infos. -/
theorem C5_witness :
    ((⟨goStr "0", [⟨"a", "x"⟩], goStr "0"⟩ : DiscoveryResponse).versionInfo = goStr "0" ∧
      (⟨goStr "0", [⟨"a", "x"⟩], goStr "0"⟩ : DiscoveryResponse).nonce = goStr "0") ∧
    ((stream0Sends [⟨1, []⟩, ⟨2, []⟩]).map (fun resp => parseDec resp.versionInfo)).Chain'
      (· < ·) :=
  ⟨C5_thm.1 [] [[⟨"a", "x"⟩]] _ (by decide),
   C5_thm.2.2 [⟨1, []⟩, ⟨2, []⟩] (by norm_num [List.chain'_cons])⟩

/-- C5 counterexample: the claim as stated fails on the later stream — two
consecutive cache notifications produce two responses, both with non-empty
resources, and both carry version_info "0" and nonce "0": the second
response's version is not strictly greater than the first's, and the two
nonces coincide. -/
theorem C5_counterexample :
    streamSends [] [[⟨"a", "x"⟩], [⟨"a", "x"⟩]] =
      [⟨goStr "0", [⟨"a", "x"⟩], goStr "0"⟩, ⟨goStr "0", [⟨"a", "x"⟩], goStr "0"⟩] := by
  decide

end grpc

/-! ## SHA-256 digest shape and test vector -/

namespace sha256

theorem compressStep_length (st : List Nat) (kw : Nat × Nat) :
    (compressStep st kw).length = 8 := rfl

theorem foldl_compressStep_length (l : List (Nat × Nat)) (st : List Nat)
    (h : st.length = 8) : (l.foldl compressStep st).length = 8 := by
  induction l generalizing st with
  | nil => exact h
  | cons x t ih => exact ih (compressStep st x) (compressStep_length st x)

theorem compressBlock_length (h : List Nat) (block : List Nat) (hl : h.length = 8) :
    (compressBlock h block).length = 8 := by
  unfold compressBlock
  rw [List.length_zipWith, foldl_compressStep_length _ _ hl, hl]
  rfl

theorem foldl_compressBlock_length (blocks : List (List Nat)) (h : List Nat)
    (hl : h.length = 8) : (blocks.foldl compressBlock h).length = 8 := by
  induction blocks generalizing h with
  | nil => exact hl
  | cons b t ih => exact ih (compressBlock h b) (compressBlock_length h b hl)

theorem flatMap_be32_length (l : List Nat) : (l.flatMap be32).length = 4 * l.length := by
  induction l with
  | nil => rfl
  | cons x t ih =>
    rw [List.flatMap_cons, List.length_append, ih, List.length_cons]
    simp only [be32, List.length_cons, List.length_nil]
    omega

theorem sha256bytes_length (msg : List Nat) : (sha256bytes msg).length = 32 := by
  unfold sha256bytes
  rw [flatMap_be32_length, foldl_compressBlock_length (chunks (pad msg)) H0 (by rfl)]

theorem flatMap_byteHex_length (l : List Nat) : (l.flatMap byteHex).length = 2 * l.length := by
  induction l with
  | nil => rfl
  | cons x t ih =>
    rw [List.flatMap_cons, List.length_append, ih, List.length_cons]
    simp only [byteHex, List.length_cons, List.length_nil]
    omega

/-- Every hex digest has exactly 64 characters. -/
theorem sha256hex_length (msg : List Nat) : (sha256hex msg).length = 64 := by
  unfold sha256hex
  rw [flatMap_byteHex_length, sha256bytes_length]

set_option maxRecDepth 40000 in
/-- The embedding reproduces the standard FIPS 180-4 test vector for "abc". -/
theorem sha256hex_abc :
    sha256hex (utf8Bytes (goStr "abc")) =
      goStr "ba7816bf8f01cfea414140de5dae2223b00361a396177a9cb410ff61f20015ad" := by
  decide

end sha256

/-! ## hashname -/

namespace contour

theorem min_le_right (a b : Nat) : min a b ≤ b := by
  unfold min
  split <;> omega

theorem hashnameLoop_length_le (l per : Nat) (suffix hash : GoStr) :
    ∀ (fuel : Nat) (s : List GoStr), (hashnameLoop l per suffix hash fuel s).length ≤ l := by
  intro fuel
  induction fuel with
  | zero =>
    intro s
    unfold hashnameLoop
    rw [List.length_take]
    exact le_trans (Nat.min_le_left _ _) (min_le_right _ _)
  | succ n ih =>
    intro s
    simp only [hashnameLoop]
    split
    · omega
    · exact ih _

/-- C3: corrected — hashname returns the components joined with "/"
unchanged exactly when the joined string is STRICTLY shorter than the
limit l (a joined string of length exactly l is already hashed); in every
case, including the tail-first truncation and the final truncated-hash
fallback, the result's length never exceeds l. -/
theorem C3_thm :
    (∀ (l : Nat) (s : List GoStr),
      (joinSlash s).length < l → hashname l s = joinSlash s) ∧
    (∀ (l : Nat) (s : List GoStr), (hashname l s).length ≤ l) := by
  constructor
  · intro l s h
    unfold hashname
    rw [if_pos h]
  · intro l s
    simp only [hashname]
    split
    · omega
    · exact hashnameLoop_length_le _ _ _ _ _ _

/-- C3 witness: the theorem applied at a joined string strictly under the
limit, and at one at the limit. -/
theorem C3_witness :
    hashname 10 [goStr "ab", goStr "c"] = joinSlash [goStr "ab", goStr "c"] ∧
    (hashname 3 [goStr "abc"]).length ≤ 3 :=
  ⟨C3_thm.1 10 [goStr "ab", goStr "c"] (by decide), C3_thm.2 3 [goStr "abc"]⟩

set_option maxRecDepth 40000 in
/-- C3 counterexample: the claim as stated fails at the boundary — for
l = 3 and the single component "abc" the joined string "abc" does not
exceed l, yet hashname does not return it unchanged: the code only
returns the joined string when l > len(r), so "abc" is replaced by the
first three hex digits of its SHA-256 digest. -/
theorem C3_counterexample :
    (joinSlash [goStr "abc"]).length ≤ 3 ∧
    hashname 3 [goStr "abc"] ≠ joinSlash [goStr "abc"] ∧
    hashname 3 [goStr "abc"] = goStr "ba7" := by
  refine ⟨by decide, ?_, ?_⟩ <;> decide

end contour

namespace status

theorem mutateCond_eq_foldl (existing : List Condition) (cond : Condition) :
    mutateCond existing cond = existing.foldl mutateStep cond := rfl

/-- A merge step never alters the content fields of the new condition. -/
theorem mutateStep_content (c e : Condition) :
    (mutateStep c e).status = c.status ∧ (mutateStep c e).reason = c.reason ∧
    (mutateStep c e).message = c.message ∧ (mutateStep c e).type_ = c.type_ := by
  unfold mutateStep
  split <;> simp

/-- Folding merge steps never alters the content fields. -/
theorem mutateCond_content (existing : List Condition) (c : Condition) :
    (mutateCond existing c).status = c.status ∧ (mutateCond existing c).reason = c.reason ∧
    (mutateCond existing c).message = c.message ∧ (mutateCond existing c).type_ = c.type_ := by
  rw [mutateCond_eq_foldl]
  induction existing generalizing c with
  | nil => simp [List.foldl]
  | cons e t ih =>
    simp only [List.foldl_cons]
    have hs := mutateStep_content c e
    have ht := ih (mutateStep c e)
    exact ⟨ht.1.trans hs.1, ht.2.1.trans hs.2.1, ht.2.2.1.trans hs.2.2.1,
      ht.2.2.2.trans hs.2.2.2⟩

/-- contentEq only looks at the content fields, which merge steps preserve. -/
theorem contentEq_mutateCond (existing : List Condition) (c e : Condition) :
    contentEq (mutateCond existing c) e = contentEq c e := by
  have h := mutateCond_content existing c
  unfold contentEq
  rw [h.1, h.2.1, h.2.2.1, h.2.2.2]

/-- When no further existing condition matches in content or carries a
greater generation, the fold leaves the condition untouched. -/
theorem mutateCond_noop (existing : List Condition) (c : Condition)
    (h : ∀ e ∈ existing, contentEq c e = false ∧ e.observedGeneration ≤ c.observedGeneration) :
    mutateCond existing c = c := by
  rw [mutateCond_eq_foldl]
  induction existing with
  | nil => rfl
  | cons e t ih =>
    have he := h e (List.mem_cons_self e t)
    have hstep : mutateStep c e = c := by
      unfold mutateStep
      have : ¬(contentEq c e ∨ e.observedGeneration > c.observedGeneration) := by
        rw [he.1]
        simp only [Bool.false_eq_true, false_or, gt_iff_lt, not_lt]
        exact he.2
      rw [if_neg this]
    simp only [List.foldl_cons, hstep]
    exact ih (fun e' he' => h e' (List.mem_cons_of_mem e he'))

/-- C6: when the status writer computes the conditions to persist, a new
condition whose content (type, status, reason, message) equals an existing
condition keeps that existing condition's lastTransitionTime — provided no
existing condition listed after it has a strictly greater
observedGeneration or also matches; symmetrically, a new condition keeps
its own (fresh) transition time only when no existing condition matches its
content and none carries a strictly greater observedGeneration. -/
theorem C6_thm :
    (∀ (pre post : List Condition) (E c : Condition),
      contentEq c E = true →
      (∀ e ∈ post, contentEq c e = false ∧ e.observedGeneration ≤ E.observedGeneration) →
      (mutateCond (pre ++ E :: post) c).lastTransitionTime = E.lastTransitionTime) ∧
    (∀ (existing : List Condition) (c : Condition),
      (∀ e ∈ existing, contentEq c e = false ∧ e.observedGeneration ≤ c.observedGeneration) →
      mutateCond existing c = c) := by
  constructor
  · intro pre post E c hE hpost
    rw [mutateCond_eq_foldl, List.foldl_append, List.foldl_cons]
    have hcontent : contentEq (List.foldl mutateStep c pre) E = contentEq c E := by
      rw [← mutateCond_eq_foldl]
      exact contentEq_mutateCond pre c E
    set c' := List.foldl mutateStep c pre with hc'
    have hstep : mutateStep c' E =
        { c' with
          observedGeneration := E.observedGeneration
          lastTransitionTime := E.lastTransitionTime } := by
      unfold mutateStep
      rw [if_pos]
      left
      rw [hcontent, hE]
    rw [hstep]
    set c'' :=
      { c' with
        observedGeneration := E.observedGeneration
        lastTransitionTime := E.lastTransitionTime } with hc''
    have hnoop : List.foldl mutateStep c'' post = c'' := by
      rw [← mutateCond_eq_foldl]
      apply mutateCond_noop
      intro e he
      have he' := hpost e he
      constructor
      · have : contentEq c'' e = contentEq c' e := by
          unfold contentEq
          simp [hc'']
        rw [this]
        have h2 : contentEq c' e = contentEq c e := by
          rw [← mutateCond_eq_foldl] at hc'
          rw [hc']
          exact contentEq_mutateCond pre c e
        rw [h2]
        exact he'.1
      · exact he'.2
    rw [hnoop]
  · intro existing c h
    exact mutateCond_noop existing c h

/-- C6 witness: a concrete instantiation of the preserved-transition-time
theorem — one matching existing condition, nothing after it. -/
theorem C6_witness :
    (mutateCond
      [⟨"Valid", "True", "R", "M", 1, 5⟩]
      ⟨"Valid", "True", "R", "M", 1, 10⟩).lastTransitionTime = 5 := by
  have h := C6_thm.1 [] []
    ⟨"Valid", "True", "R", "M", 1, 5⟩
    ⟨"Valid", "True", "R", "M", 1, 10⟩
    (by decide) (by intro e he; cases he)
  simpa using h

/-- C6 counterexample: the claim as stated fails — a new condition whose
content equals the first existing condition does not keep that condition's
lastTransitionTime (5) when a later existing condition carries a strictly
greater observedGeneration: the merge loop then overwrites the preserved
time with the later condition's (7). -/
theorem C6_counterexample :
    contentEq ⟨"Valid", "True", "R", "M", 1, 10⟩ ⟨"Valid", "True", "R", "M", 1, 5⟩ = true ∧
    (mutateCond
      [⟨"Valid", "True", "R", "M", 1, 5⟩, ⟨"Other", "False", "Q", "N", 2, 7⟩]
      ⟨"Valid", "True", "R", "M", 1, 10⟩).lastTransitionTime = 7 := by
  decide

end status

namespace policy

/-- C10: parseTimeout is total over all string inputs and never reports an
error: it returns 0 for the empty string, -1 for the literal "infinity" and
for every string that fails duration parsing, and the parsed duration
otherwise — a malformed timeout silently disables the timeout. Quantified
over the external duration parser. -/
theorem C10_thm (pd : String → Option Int) (s : String) :
    (s = "" → parseTimeout pd s = 0) ∧
    (s = "infinity" → parseTimeout pd s = -1) ∧
    (s ≠ "" → s ≠ "infinity" → pd s = none → parseTimeout pd s = -1) ∧
    (∀ d, s ≠ "" → s ≠ "infinity" → pd s = some d → parseTimeout pd s = d) := by
  refine ⟨?_, ?_, ?_, ?_⟩
  · intro h; simp [parseTimeout, h]
  · intro h
    subst h
    simp [parseTimeout]
  · intro h1 h2 h3
    simp [parseTimeout, h1, h2, h3]
  · intro d h1 h2 h3
    simp [parseTimeout, h1, h2, h3]

/-- C10 witness: the theorem applied at a malformed timeout string under a
parser that rejects it. -/
theorem C10_witness :
    parseTimeout (fun _ => none) "not-a-duration" = -1 :=
  (C10_thm (fun _ => none) "not-a-duration").2.2.1
    (by decide) (by decide) rfl

end policy

namespace translator

/-- C9: an Endpoints object whose subset list is empty is ignored on add —
`addEndpoints` performs no ClusterLoadAssignment recompute and no watcher
notification, for every cache state. -/
theorem C9_thm (cache : TranslatorCache) (e : Endpoints) (h : e.subsets = []) :
    addEndpoints cache e = [] := by
  unfold addEndpoints
  rw [if_pos]
  rw [h]
  decide

/-- C9 witness: a concrete empty-subsets Endpoints object against a cache
that does hold its service (so only the empty-subsets test can be the cause
of the skip). -/
theorem C9_witness :
    addEndpoints
      ⟨[(⟨"kuard", "default"⟩, ⟨"kuard", "default", [⟨"http", 80⟩]⟩)], []⟩
      ⟨"kuard", "default", []⟩ = [] :=
  C9_thm _ _ rfl

/-- C7: an Ingress whose kubernetes.io/ingress.class annotation differs
from the configured ("contour") class is rejected by `addIngress` — no
recompute effect runs; an Ingress with no class annotation, or one whose
class annotation is "contour", is admitted (the recompute pipeline runs,
starting with the listener recompute); and under the annotation package's
matching (modelled from the spec), an empty configured class matches the
well-known default class. -/
theorem C7_thm :
    (∀ (i : Ingress) (c : String),
      i.annots.lookup "kubernetes.io/ingress.class" = some c → c ≠ "contour" →
      addIngress i = []) ∧
    (∀ i : Ingress,
      i.annots.lookup "kubernetes.io/ingress.class" = none →
      (addIngress i).head? = some .recomputeListeners) ∧
    (∀ i : Ingress,
      i.annots.lookup "kubernetes.io/ingress.class" = some "contour" →
      (addIngress i).head? = some .recomputeListeners) ∧
    (∀ annots : List (String × String),
      ingressClassOf annots = DEFAULT_INGRESS_CLASS_NAME →
      matchesIngressClass annots "" = true) := by
  refine ⟨?_, ?_, ?_, ?_⟩
  · intro i c hc hne
    unfold addIngress
    rw [hc]
    simp [hne]
  · intro i h
    unfold addIngress
    rw [h]
    rfl
  · intro i h
    unfold addIngress
    rw [h]
    rfl
  · intro annots h
    unfold matchesIngressClass
    split
    · rfl
    · rw [if_pos ⟨h, rfl⟩]

/-- C7 witness: the theorem applied to concrete ingresses — a foreign-class
ingress is dropped, an unannotated and a default-class ingress are
admitted, and the default-class annotation matches the empty configured
class. -/
theorem C7_witness :
    addIngress ⟨"i", "default", [("kubernetes.io/ingress.class", "nginx")], none, [], []⟩ = [] ∧
    (addIngress ⟨"i", "default", [], none, [], []⟩).head? =
      some .recomputeListeners ∧
    (addIngress ⟨"i", "default", [("kubernetes.io/ingress.class", "contour")], none, [], []⟩).head? =
      some .recomputeListeners ∧
    matchesIngressClass [("kubernetes.io/ingress.class", "contour")] "" = true :=
  ⟨C7_thm.1 _ "nginx" rfl (by decide),
   C7_thm.2.1 _ rfl,
   C7_thm.2.2.1 _ rfl,
   C7_thm.2.2.2 _ rfl⟩

end translator

/-! ## Route sorter order theory -/

namespace sorter

theorem lexLt_asymm : ∀ {a b : GoStr}, lexLt a b = true → lexLt b a = false := by
  intro a
  induction a with
  | nil =>
    intro b h
    cases b with
    | nil => simp [lexLt] at h
    | cons y t => rfl
  | cons x s ih =>
    intro b h
    cases b with
    | nil => simp [lexLt] at h
    | cons y t =>
      simp only [lexLt] at h ⊢
      by_cases h1 : x < y
      · rw [if_neg (lt_asymm h1), if_pos h1]
      · rw [if_neg h1] at h
        by_cases h2 : y < x
        · rw [if_pos h2] at h
          exact absurd h (by simp)
        · rw [if_neg h2] at h
          rw [if_neg h2, if_neg h1]
          exact ih h

theorem lexLt_trans : ∀ {a b c : GoStr},
    lexLt a b = true → lexLt b c = true → lexLt a c = true := by
  intro a
  induction a with
  | nil =>
    intro b c h1 h2
    cases c with
    | nil =>
      cases b with
      | nil => simp [lexLt] at h2
      | cons y t => simp [lexLt] at h2
    | cons z u => rfl
  | cons x s ih =>
    intro b c h1 h2
    cases b with
    | nil => simp [lexLt] at h1
    | cons y t =>
      cases c with
      | nil => simp [lexLt] at h2
      | cons z u =>
        simp only [lexLt] at h1 h2 ⊢
        by_cases hxy : x < y
        · by_cases hyz : y < z
          · rw [if_pos (lt_trans hxy hyz)]
          · rw [if_neg hyz] at h2
            by_cases hzy : z < y
            · rw [if_pos hzy] at h2
              exact absurd h2 (by simp)
            · have hy : y = z := le_antisymm (not_lt.mp hzy) (not_lt.mp hyz)
              rw [if_pos (hy ▸ hxy)]
        · rw [if_neg hxy] at h1
          by_cases hyx : y < x
          · rw [if_pos hyx] at h1
            exact absurd h1 (by simp)
          · have hx : x = y := le_antisymm (not_lt.mp hyx) (not_lt.mp hxy)
            rw [if_neg hyx] at h1
            subst hx
            by_cases hxz : x < z
            · rw [if_pos hxz]
            · rw [if_neg hxz] at h2 ⊢
              by_cases hzx : z < x
              · rw [if_pos hzx] at h2
                exact absurd h2 (by simp)
              · rw [if_neg hzx] at h2 ⊢
                exact ih h1 h2

theorem lexLt_eq : ∀ {a b : GoStr}, lexLt a b = false → lexLt b a = false → a = b := by
  intro a
  induction a with
  | nil =>
    intro b h1 _
    cases b with
    | nil => rfl
    | cons y t => simp [lexLt] at h1
  | cons x s ih =>
    intro b h1 h2
    cases b with
    | nil => simp [lexLt] at h2
    | cons y t =>
      simp only [lexLt] at h1 h2
      by_cases hxy : x < y
      · rw [if_pos hxy] at h1
        exact absurd h1 (by simp)
      · rw [if_neg hxy] at h1
        by_cases hyx : y < x
        · rw [if_pos hyx] at h2
          exact absurd h2 (by simp)
        · rw [if_neg hyx] at h1
          rw [if_neg hyx, if_neg hxy] at h2
          have hx : x = y := le_antisymm (not_lt.mp hyx) (not_lt.mp hxy)
          rw [hx, ih h1 h2]

/-- Negative transitivity, derived. -/
theorem lexLt_irrefl : ∀ a : GoStr, lexLt a a = false := by
  intro a
  induction a with
  | nil => rfl
  | cons x s ih => simp only [lexLt, lt_irrefl, if_false, ih, if_neg]

theorem lexLt_negtrans {a b c : GoStr}
    (h1 : lexLt b a = false) (h2 : lexLt c b = false) : lexLt c a = false := by
  by_contra h
  rw [Bool.not_eq_false] at h
  by_cases hbc : lexLt b c = true
  · exact absurd (lexLt_trans hbc h) (by rw [h1]; simp)
  · rw [Bool.not_eq_true] at hbc
    rw [lexLt_eq hbc h2] at h1
    rw [h] at h1
    cases h1


theorem protoStr_inj {a b : HeaderMatcher} (hn : a.name = b.name)
    (hp : protoStr a = protoStr b) : a = b := by
  obtain ⟨na, sa⟩ := a
  obtain ⟨nb, sb⟩ := b
  simp only at hn
  subst hn
  cases sa with
  | exactMatch v =>
    cases sb with
    | exactMatch w =>
      simp only [protoStr] at hp
      have e1 := List.append_cancel_left hp
      have e2 := List.append_cancel_right e1
      have e3 := List.append_cancel_left e2
      rw [e3]
    | presentMatch =>
      simp only [protoStr] at hp
      have e2 := List.append_cancel_left hp
      have he : goStr "\" exact_match:\"" =
          '"' :: ' ' :: 'e' :: 'x' :: 'a' :: 'c' :: 't' :: '_' :: 'm' :: 'a' :: 't' :: 'c' :: 'h' :: ':' :: '"' :: [] := rfl
      have hq : goStr "\" present_match:true" =
          '"' :: ' ' :: 'p' :: 'r' :: 'e' :: 's' :: 'e' :: 'n' :: 't' :: '_' :: 'm' :: 'a' :: 't' :: 'c' :: 'h' :: ':' :: 't' :: 'r' :: 'u' :: 'e' :: [] := rfl
      rw [he, hq] at e2
      simp at e2
  | presentMatch =>
    cases sb with
    | exactMatch w =>
      simp only [protoStr] at hp
      have e2 := List.append_cancel_left hp
      have he : goStr "\" exact_match:\"" =
          '"' :: ' ' :: 'e' :: 'x' :: 'a' :: 'c' :: 't' :: '_' :: 'm' :: 'a' :: 't' :: 'c' :: 'h' :: ':' :: '"' :: [] := rfl
      have hq : goStr "\" present_match:true" =
          '"' :: ' ' :: 'p' :: 'r' :: 'e' :: 's' :: 'e' :: 'n' :: 't' :: '_' :: 'm' :: 'a' :: 't' :: 'c' :: 'h' :: ':' :: 't' :: 'r' :: 'u' :: 'e' :: [] := rfl
      rw [he, hq] at e2
      simp at e2
    | presentMatch => rfl

theorem headerMatcherLt_asymm {a b : HeaderMatcher}
    (h : headerMatcherLt a b = true) : headerMatcherLt b a = false := by
  unfold headerMatcherLt at h ⊢
  by_cases h1 : lexLt a.name b.name
  · rw [if_neg (by rw [lexLt_asymm h1]; simp), if_pos h1]
  · rw [if_neg h1] at h
    by_cases h2 : lexLt b.name a.name
    · rw [if_pos h2] at h
      exact absurd h (by simp)
    · rw [if_neg h2] at h
      rw [if_neg h2, if_neg h1]
      rw [lexLt_asymm h]

theorem headerMatcherLt_trans {a b c : HeaderMatcher}
    (h1 : headerMatcherLt a b = true) (h2 : headerMatcherLt b c = true) :
    headerMatcherLt a c = true := by
  unfold headerMatcherLt at h1 h2 ⊢
  by_cases hab : lexLt a.name b.name
  · by_cases hbc : lexLt b.name c.name
    · rw [if_pos (lexLt_trans hab hbc)]
    · rw [if_neg hbc] at h2
      by_cases hcb : lexLt c.name b.name
      · rw [if_pos hcb] at h2
        exact absurd h2 (by simp)
      · have : b.name = c.name := lexLt_eq (Bool.not_eq_true _ ▸ hbc) (Bool.not_eq_true _ ▸ hcb)
        rw [if_pos (this ▸ hab)]
  · rw [if_neg hab] at h1
    by_cases hba : lexLt b.name a.name
    · rw [if_pos hba] at h1
      exact absurd h1 (by simp)
    · rw [if_neg hba] at h1
      have hnab : a.name = b.name := lexLt_eq (Bool.not_eq_true _ ▸ hab) (Bool.not_eq_true _ ▸ hba)
      by_cases hbc : lexLt b.name c.name
      · rw [if_pos (hnab ▸ hbc)]
      · rw [if_neg hbc] at h2
        by_cases hcb : lexLt c.name b.name
        · rw [if_pos hcb] at h2
          exact absurd h2 (by simp)
        · rw [if_neg hcb] at h2
          have hnbc : b.name = c.name := lexLt_eq (Bool.not_eq_true _ ▸ hbc) (Bool.not_eq_true _ ▸ hcb)
          have hac : a.name = c.name := hnab.trans hnbc
          rw [if_neg (by rw [hac, lexLt_irrefl]; simp), if_neg (by rw [← hac, lexLt_irrefl]; simp)]
          exact lexLt_trans h1 h2

theorem headerMatcherLt_eq {a b : HeaderMatcher}
    (h1 : headerMatcherLt a b = false) (h2 : headerMatcherLt b a = false) : a = b := by
  unfold headerMatcherLt at h1 h2
  by_cases hab : lexLt a.name b.name
  · rw [if_pos hab] at h1
    exact absurd h1 (by simp)
  · rw [if_neg hab] at h1
    by_cases hba : lexLt b.name a.name
    · rw [if_pos hba] at h2
      exact absurd h2 (by simp)
    · rw [if_neg hba] at h1
      rw [if_neg hab, if_neg hba] at h2
      exact protoStr_inj (lexLt_eq (Bool.not_eq_true _ ▸ hab) (Bool.not_eq_true _ ▸ hba))
        (lexLt_eq h1 h2)


theorem headerListLt_asymm : ∀ {a b : List HeaderMatcher},
    headerListLt a b = true → headerListLt b a = false := by
  intro a
  induction a with
  | nil =>
    intro b h
    cases b with
    | nil => simp [headerListLt] at h
    | cons y t => rfl
  | cons x s ih =>
    intro b h
    cases b with
    | nil => simp [headerListLt] at h
    | cons y t =>
      simp only [headerListLt] at h ⊢
      by_cases h1 : headerMatcherLt x y = true
      · rw [if_neg (by rw [headerMatcherLt_asymm h1]; simp), if_pos h1]
      · rw [if_neg h1] at h
        by_cases h2 : headerMatcherLt y x = true
        · rw [if_pos h2] at h
          exact absurd h (by simp)
        · rw [if_neg h2] at h
          rw [if_neg h2, if_neg h1]
          exact ih h

theorem headerListLt_trans : ∀ {a b c : List HeaderMatcher},
    headerListLt a b = true → headerListLt b c = true → headerListLt a c = true := by
  intro a
  induction a with
  | nil =>
    intro b c h1 h2
    cases c with
    | nil =>
      cases b with
      | nil => simp [headerListLt] at h2
      | cons y t => simp [headerListLt] at h2
    | cons z u => rfl
  | cons x s ih =>
    intro b c h1 h2
    cases b with
    | nil => simp [headerListLt] at h1
    | cons y t =>
      cases c with
      | nil => simp [headerListLt] at h2
      | cons z u =>
        simp only [headerListLt] at h1 h2 ⊢
        by_cases hxy : headerMatcherLt x y = true
        · by_cases hyz : headerMatcherLt y z = true
          · rw [if_pos (headerMatcherLt_trans hxy hyz)]
          · rw [if_neg hyz] at h2
            by_cases hzy : headerMatcherLt z y = true
            · rw [if_pos hzy] at h2
              exact absurd h2 (by simp)
            · have hy : y = z := headerMatcherLt_eq (Bool.not_eq_true _ ▸ hyz) (Bool.not_eq_true _ ▸ hzy)
              rw [if_pos (hy ▸ hxy)]
        · rw [if_neg hxy] at h1
          by_cases hyx : headerMatcherLt y x = true
          · rw [if_pos hyx] at h1
            exact absurd h1 (by simp)
          · have hx : x = y := headerMatcherLt_eq (Bool.not_eq_true _ ▸ hxy) (Bool.not_eq_true _ ▸ hyx)
            rw [if_neg hyx] at h1
            subst hx
            by_cases hxz : headerMatcherLt x z = true
            · rw [if_pos hxz]
            · rw [if_neg hxz] at h2 ⊢
              by_cases hzx : headerMatcherLt z x = true
              · rw [if_pos hzx] at h2
                exact absurd h2 (by simp)
              · rw [if_neg hzx] at h2 ⊢
                exact ih h1 h2

theorem headerListLt_eq : ∀ {a b : List HeaderMatcher},
    headerListLt a b = false → headerListLt b a = false → a = b := by
  intro a
  induction a with
  | nil =>
    intro b h1 _
    cases b with
    | nil => rfl
    | cons y t => simp [headerListLt] at h1
  | cons x s ih =>
    intro b h1 h2
    cases b with
    | nil => simp [headerListLt] at h2
    | cons y t =>
      simp only [headerListLt] at h1 h2
      by_cases hxy : headerMatcherLt x y = true
      · rw [if_pos hxy] at h1
        exact absurd h1 (by simp)
      · rw [if_neg hxy] at h1
        by_cases hyx : headerMatcherLt y x = true
        · rw [if_pos hyx] at h2
          exact absurd h2 (by simp)
        · rw [if_neg hyx] at h1
          rw [if_neg hyx, if_neg hxy] at h2
          have hx : x = y := headerMatcherLt_eq (Bool.not_eq_true _ ▸ hxy) (Bool.not_eq_true _ ▸ hyx)
          rw [hx, ih h1 h2]

theorem headerListLt_negtrans {a b c : List HeaderMatcher}
    (h1 : headerListLt b a = false) (h2 : headerListLt c b = false) :
    headerListLt c a = false := by
  by_contra h
  rw [Bool.not_eq_false] at h
  by_cases hbc : headerListLt b c = true
  · exact absurd (headerListLt_trans hbc h) (by rw [h1]; simp)
  · rw [Bool.not_eq_true] at hbc
    rw [headerListLt_eq hbc h2] at h1
    rw [h] at h1
    cases h1


theorem routeLess_asymm {a b : RouteV3} (h : routeLess a b = true) :
    routeLess b a = false := by
  unfold routeLess at h ⊢
  split_ifs at h ⊢ <;>
    first
      | (exact headerListLt_asymm h)
      | (simp_all; omega)
      | simp_all

theorem routeLess_negtrans {a b c : RouteV3} (h1 : routeLess b a = false)
    (h2 : routeLess c b = false) : routeLess c a = false := by
  unfold routeLess at h1 h2 ⊢
  split_ifs at h1 h2 ⊢ <;>
    first
      | (exact headerListLt_negtrans h1 h2)
      | (simp_all; omega)
      | simp_all

theorem routeRel_total (a b : RouteV3) :
    routeLess b a = false ∨ routeLess a b = false := by
  by_cases h : routeLess b a = true
  · right
    exact routeLess_asymm h
  · left
    rwa [Bool.not_eq_true] at h

theorem sortRoutes_perm (l : List RouteV3) : List.Perm (sortRoutes l) l :=
  List.perm_insertionSort _ l

theorem sortRoutes_sorted (l : List RouteV3) :
    (sortRoutes l).Sorted (fun a b => routeLess b a = false) := by
  haveI : IsTotal RouteV3 (fun a b => routeLess b a = false) := ⟨routeRel_total⟩
  haveI : IsTrans RouteV3 (fun a b => routeLess b a = false) :=
    ⟨fun _ _ _ h1 h2 => routeLess_negtrans h1 h2⟩
  exact List.sorted_insertionSort _ l

theorem sortRoutes_stable {a b : RouteV3} {l : List RouteV3}
    (hab : routeLess b a = false) (h : List.Sublist [a, b] l) :
    List.Sublist [a, b] (sortRoutes l) := by
  haveI : IsTotal RouteV3 (fun a b => routeLess b a = false) := ⟨routeRel_total⟩
  haveI : IsTrans RouteV3 (fun a b => routeLess b a = false) :=
    ⟨fun _ _ _ h1 h2 => routeLess_negtrans h1 h2⟩
  exact List.pair_sublist_insertionSort hab h

/-- C2: corrected against the repository's sorter tests — the stable route
sort orders by path-match kind (regex before exact before prefix), then
path length longer first, then header-condition count more first, then the
header matchers compared ELEMENT-WISE (by header name, then by the
protobuf text of the matcher), with input order as the tie-break: the
output is a permutation of the input, carries no inversion anywhere, any
non-inverted input pair (ties included) keeps its relative order, and the
sort reproduces the outputs pinned by TestSortRoutesLongestHeaders and
TestSortRoutesLongestPath. -/
theorem C2_thm :
    (∀ l : List RouteV3, List.Perm (sortRoutes l) l) ∧
    (∀ l : List RouteV3, (sortRoutes l).Sorted (fun a b => routeLess b a = false)) ∧
    (∀ (a b : RouteV3) (l : List RouteV3), routeLess b a = false →
      List.Sublist [a, b] l → List.Sublist [a, b] (sortRoutes l)) ∧
    sortRoutes [routeD, routeC, routeB, routeA] = [routeA, routeB, routeC, routeD] ∧
    sortRoutes
        [⟨.pfx (goStr "/path/prefix"), []⟩, ⟨.pfx (goStr "/path/prefix2"), []⟩,
         ⟨.regex (goStr "."), []⟩, ⟨.regex (goStr "/this/is/the/longest"), []⟩] =
      [⟨.regex (goStr "/this/is/the/longest"), []⟩, ⟨.regex (goStr "."), []⟩,
       ⟨.pfx (goStr "/path/prefix2"), []⟩, ⟨.pfx (goStr "/path/prefix"), []⟩] :=
  ⟨sortRoutes_perm, sortRoutes_sorted,
   fun _ _ _ hab h => sortRoutes_stable hab h,
   by decide, by decide⟩

/-- C2 witness: the stability clause applied to a concrete tied pair (two
prefix routes of equal kind, path length and headers): their input order
is preserved by the sort. -/
theorem C2_witness :
    List.Sublist [(⟨.pfx (goStr "/aa"), []⟩ : RouteV3), ⟨.pfx (goStr "/ab"), []⟩]
      (sortRoutes [⟨.pfx (goStr "/aa"), []⟩, ⟨.pfx (goStr "/ab"), []⟩]) :=
  C2_thm.2.2.1 ⟨.pfx (goStr "/aa"), []⟩ ⟨.pfx (goStr "/ab"), []⟩ _
    (by decide) (List.Sublist.refl _)

/-- C2 counterexample: the claim's rule (iv) — total lexicographic length
of the header matchers, longer first — fails against the repository's own
TestSortRoutesLongestHeaders: under that rule the long-header-name route
(total matcher text 55 characters) sorts strictly before both header-name
routes, so a stable sort by the claim's comparator cannot produce the
pinned output [A, B, C, D], which lists it third. -/
theorem C2_counterexample :
    claimRouteLess routeC routeA = true ∧
    claimRouteLess routeC routeB = true ∧
    List.insertionSort (fun a b => claimRouteLess b a = false)
        [routeD, routeC, routeB, routeA] ≠
      [routeA, routeB, routeC, routeD] := by
  refine ⟨by decide, by decide, by decide⟩

end sorter


/-! ## DAG recompute determinism and round-trip -/

namespace dag

theorem lookup_none_keys {α β : Type} [DecidableEq α] {l : List (α × β)} {k : α}
    (h : l.lookup k = none) : ∀ p ∈ l, p.1 ≠ k := by
  induction l with
  | nil =>
    intro p hp
    cases hp
  | cons q t ih =>
    obtain ⟨qk, qv⟩ := q
    intro p hp
    by_cases hk : k = qk
    · subst hk
      simp [List.lookup] at h
    · have hbeq : (k == qk) = false := beq_eq_false_iff_ne.mpr hk
      simp only [List.lookup, hbeq] at h
      rcases List.mem_cons.mp hp with hp1 | hp2
      · subst hp1
        simpa using fun hh => hk hh.symm
      · exact ih h p hp2

theorem removeKV_putKV {α β : Type} [DecidableEq α] (l : List (α × β)) (k : α) (v : β)
    (h : l.lookup k = none) : removeKV (putKV l k v) k = l := by
  unfold putKV removeKV
  rw [h]
  simp only [Option.isSome_none, Bool.false_eq_true, if_false]
  rw [List.filter_append]
  have h1 : l.filter (fun p => p.1 ≠ k) = l := by
    rw [List.filter_eq_self]
    intro p hp
    simpa using lookup_none_keys h p hp
  have h2 : List.filter (fun p => p.1 ≠ k) [(k, v)] = [] := by
    simp
  rw [h1, h2, List.append_nil]

theorem mem_of_lookup_some {α β : Type} [DecidableEq α] :
    ∀ {l : List (α × β)} {k : α} {v : β}, l.lookup k = some v → (k, v) ∈ l := by
  intro l
  induction l with
  | nil =>
    intro k v h
    cases h
  | cons q t ih =>
    obtain ⟨qk, qv⟩ := q
    intro k v h
    by_cases hk : k = qk
    · subst hk
      simp only [List.lookup, beq_self_eq_true] at h
      rw [Option.some.injEq] at h
      subst h
      exact List.mem_cons_self _ _
    · have hbeq : (k == qk) = false := beq_eq_false_iff_ne.mpr hk
      simp only [List.lookup, hbeq] at h
      exact List.mem_cons_of_mem _ (ih h)

theorem lookup_some_of_mem {α β : Type} [DecidableEq α] :
    ∀ {l : List (α × β)} {k : α} {v : β}, (k, v) ∈ l → (l.map Prod.fst).Nodup →
      l.lookup k = some v := by
  intro l
  induction l with
  | nil =>
    intro k v hm _
    cases hm
  | cons q t ih =>
    obtain ⟨qk, qv⟩ := q
    intro k v hm hnd
    simp only [List.map_cons, List.nodup_cons] at hnd
    rcases List.mem_cons.mp hm with hm1 | hm2
    · rw [Prod.mk.injEq] at hm1
      obtain ⟨hk, hv⟩ := hm1
      subst hk
      subst hv
      simp [List.lookup]
    · by_cases hk : k = qk
      · subst hk
        exact absurd (List.mem_map.mpr ⟨(k, v), hm2, rfl⟩) hnd.1
      · have hbeq : (k == qk) = false := beq_eq_false_iff_ne.mpr hk
        simp only [List.lookup, hbeq]
        exact ih hm2 hnd.2

theorem lookup_none_of_keys {α β : Type} [DecidableEq α] :
    ∀ {l : List (α × β)} {k : α}, (∀ p ∈ l, p.1 ≠ k) → l.lookup k = none := by
  intro l
  induction l with
  | nil =>
    intro k _
    rfl
  | cons q t ih =>
    obtain ⟨qk, qv⟩ := q
    intro k h
    have hk : qk ≠ k := h (qk, qv) (List.mem_cons_self _ _)
    have hbeq : (k == qk) = false := beq_eq_false_iff_ne.mpr (fun he => hk he.symm)
    simp only [List.lookup, hbeq]
    exact ih (fun p hp => h p (List.mem_cons_of_mem _ hp))

/-- With duplicate-free keys, a keyed lookup is a function of the map
content alone: any permutation of the association list answers alike. This
is the Go fact that map indexing does not depend on iteration order. -/
theorem lookup_perm {α β : Type} [DecidableEq α] {l₁ l₂ : List (α × β)}
    (hp : List.Perm l₁ l₂) (hnd : (l₁.map Prod.fst).Nodup) (k : α) :
    l₁.lookup k = l₂.lookup k := by
  cases h : l₁.lookup k with
  | some v =>
    have hm : (k, v) ∈ l₂ := hp.subset (mem_of_lookup_some h)
    have hnd2 : (l₂.map Prod.fst).Nodup := ((hp.map Prod.fst).nodup_iff).mp hnd
    rw [lookup_some_of_mem hm hnd2]
  | none =>
    rw [lookup_none_of_keys (fun p hmem => lookup_none_keys h p (hp.symm.subset hmem))]

theorem strData_inj {s t : String} (h : strData s = strData t) : s = t := by
  cases s with
  | mk d1 =>
    cases t with
    | mk d2 => exact congrArg String.mk (by simpa [strData] using h)

theorem vhLt_congr_left {a b x : VirtualHost} (hh : a.host = b.host) (hp : a.Port = b.Port) :
    vhLt a x = vhLt b x ∧ vhLt x a = vhLt x b := by
  unfold vhLt
  rw [hh, hp]
  exact ⟨rfl, rfl⟩

theorem vhLt_asymm {a b : VirtualHost} (h : vhLt a b = true) : vhLt b a = false := by
  unfold vhLt at h ⊢
  by_cases h1 : sorter.lexLt (strData a.host) (strData b.host) = true
  · rw [if_neg (by rw [sorter.lexLt_asymm h1]; simp), if_pos h1]
  · rw [if_neg h1] at h
    by_cases h2 : sorter.lexLt (strData b.host) (strData a.host) = true
    · rw [if_pos h2] at h
      exact absurd h (by simp)
    · rw [if_neg h2] at h
      rw [if_neg h2, if_neg h1]
      simp only [decide_eq_true_eq] at h
      simp only [decide_eq_false_iff_not]
      omega

theorem vhLt_keyeq {a b : VirtualHost} (h1 : vhLt a b = false) (h2 : vhLt b a = false) :
    a.host = b.host ∧ a.Port = b.Port := by
  unfold vhLt at h1 h2
  by_cases hab : sorter.lexLt (strData a.host) (strData b.host) = true
  · rw [if_pos hab] at h1
    exact absurd h1 (by simp)
  · rw [if_neg hab] at h1
    by_cases hba : sorter.lexLt (strData b.host) (strData a.host) = true
    · rw [if_pos hba] at h2
      exact absurd h2 (by simp)
    · rw [if_neg hba] at h1
      rw [if_neg hba, if_neg hab] at h2
      simp only [decide_eq_false_iff_not] at h1 h2
      exact ⟨strData_inj (sorter.lexLt_eq (Bool.not_eq_true _ ▸ hab) (Bool.not_eq_true _ ▸ hba)),
        by omega⟩

theorem vhLt_trans {a b c : VirtualHost} (h1 : vhLt a b = true) (h2 : vhLt b c = true) :
    vhLt a c = true := by
  unfold vhLt at h1 h2 ⊢
  by_cases hab : sorter.lexLt (strData a.host) (strData b.host) = true
  · by_cases hbc : sorter.lexLt (strData b.host) (strData c.host) = true
    · rw [if_pos (sorter.lexLt_trans hab hbc)]
    · rw [if_neg hbc] at h2
      by_cases hcb : sorter.lexLt (strData c.host) (strData b.host) = true
      · rw [if_pos hcb] at h2
        exact absurd h2 (by simp)
      · have hb : strData b.host = strData c.host :=
          sorter.lexLt_eq (Bool.not_eq_true _ ▸ hbc) (Bool.not_eq_true _ ▸ hcb)
        rw [if_pos (hb ▸ hab)]
  · rw [if_neg hab] at h1
    by_cases hba : sorter.lexLt (strData b.host) (strData a.host) = true
    · rw [if_pos hba] at h1
      exact absurd h1 (by simp)
    · rw [if_neg hba] at h1
      have ha : strData a.host = strData b.host :=
        sorter.lexLt_eq (Bool.not_eq_true _ ▸ hab) (Bool.not_eq_true _ ▸ hba)
      by_cases hbc : sorter.lexLt (strData b.host) (strData c.host) = true
      · rw [if_pos (ha ▸ hbc)]
      · rw [if_neg hbc] at h2
        by_cases hcb : sorter.lexLt (strData c.host) (strData b.host) = true
        · rw [if_pos hcb] at h2
          exact absurd h2 (by simp)
        · rw [if_neg hcb] at h2
          have hac : strData a.host = strData c.host :=
            ha.trans (sorter.lexLt_eq (Bool.not_eq_true _ ▸ hbc) (Bool.not_eq_true _ ▸ hcb))
          rw [if_neg (by rw [hac, sorter.lexLt_irrefl]; simp), if_neg (by rw [← hac, sorter.lexLt_irrefl]; simp)]
          simp only [decide_eq_true_eq] at h1 h2 ⊢
          omega

theorem vhLt_negtrans {a b c : VirtualHost} (h1 : vhLt b a = false) (h2 : vhLt c b = false) :
    vhLt c a = false := by
  by_contra h
  rw [Bool.not_eq_false] at h
  by_cases hbc : vhLt b c = true
  · exact absurd (vhLt_trans hbc h) (by rw [h1]; simp)
  · rw [Bool.not_eq_true] at hbc
    obtain ⟨hh, hp⟩ := vhLt_keyeq hbc h2
    have := (vhLt_congr_left (x := a) hh.symm hp.symm).1
    rw [← this, h] at h1
    cases h1

theorem vhRel_total (a b : VirtualHost) : vhLt b a = false ∨ vhLt a b = false := by
  by_cases h : vhLt b a = true
  · right
    exact vhLt_asymm h
  · left
    rwa [Bool.not_eq_true] at h

theorem vhLt_of_le_of_ne {a b : VirtualHost} (h1 : vhLt b a = false)
    (h2 : vhKey a ≠ vhKey b) : vhLt a b = true := by
  by_cases h : vhLt a b = true
  · exact h
  · rw [Bool.not_eq_true] at h
    obtain ⟨hh, hp⟩ := vhLt_keyeq h h1
    exact absurd (by unfold vhKey; rw [hh, hp]) h2

theorem sortRoots_eq_of_perm {l₁ l₂ : List VirtualHost} (hp : List.Perm l₁ l₂)
    (hnd : ((l₂.map vhKey)).Nodup) : sortRoots l₁ = sortRoots l₂ := by
  haveI : IsTotal VirtualHost (fun a b => vhLt b a = false) := ⟨vhRel_total⟩
  haveI : IsTrans VirtualHost (fun a b => vhLt b a = false) :=
    ⟨fun _ _ _ h1 h2 => vhLt_negtrans h1 h2⟩
  haveI : IsAntisymm VirtualHost (fun a b : VirtualHost => vhLt a b = true) :=
    ⟨fun _ _ h1 h2 => absurd h2 (by rw [vhLt_asymm h1]; simp)⟩
  have perm1 : List.Perm (sortRoots l₁) l₁ := List.perm_insertionSort _ l₁
  have perm2 : List.Perm (sortRoots l₂) l₂ := List.perm_insertionSort _ l₂
  have permS : List.Perm (sortRoots l₁) (sortRoots l₂) :=
    (perm1.trans hp).trans perm2.symm
  have keyne : ∀ s : List VirtualHost, List.Perm s l₂ →
      s.Pairwise (fun a b => vhKey a ≠ vhKey b) := by
    intro s hs
    have hnd2 : ((s.map vhKey)).Nodup := ((hs.map vhKey).nodup_iff).mpr hnd
    exact (List.pairwise_map).mp hnd2
  apply List.eq_of_perm_of_sorted (r := fun a b : VirtualHost => vhLt a b = true) permS
  · have hsort := List.sorted_insertionSort (fun a b : VirtualHost => vhLt b a = false) l₁
    have hkey := keyne _ (perm1.trans hp)
    exact (hsort.and hkey).imp (fun h => vhLt_of_le_of_ne h.1 h.2)
  · have hsort := List.sorted_insertionSort (fun a b : VirtualHost => vhLt b a = false) l₂
    have hkey := keyne _ perm2
    exact (hsort.and hkey).imp (fun h => vhLt_of_le_of_ne h.1 h.2)


theorem vhostUpd_inv {l : List (hostport × VirtualHost)} {host : String} {port : Int}
    {f : VirtualHost → VirtualHost} (hi : vhTableInv l)
    (hf : ∀ vh, (f vh).host = vh.host ∧ (f vh).Port = vh.Port) :
    vhTableInv (vhostUpd l host port f) := by
  unfold vhostUpd
  split
  · constructor
    · have : ((l.map fun p => if p.1 = (⟨host, port⟩ : hostport) then (p.1, f p.2) else p).map
          Prod.fst) = l.map Prod.fst := by
        rw [List.map_map]
        apply List.map_congr_left
        intro p _
        by_cases h : p.1 = (⟨host, port⟩ : hostport) <;> simp [h]
      rw [this]
      exact hi.1
    · intro p hp
      rw [List.mem_map] at hp
      obtain ⟨q, hq, hqe⟩ := hp
      by_cases h : q.1 = (⟨host, port⟩ : hostport)
      · rw [if_pos h] at hqe
        subst hqe
        have := hi.2 q hq
        simp only
        exact ⟨(hf q.2).1.trans this.1, (hf q.2).2.trans this.2⟩
      · rw [if_neg h] at hqe
        subst hqe
        exact hi.2 q hq
  · rename_i hnone
    have hnone2 : l.lookup ⟨host, port⟩ = none := by
      cases hx : l.lookup (⟨host, port⟩ : hostport) with
      | none => rfl
      | some v =>
        rw [hx] at hnone
        simp at hnone
    constructor
    · rw [List.map_append]
      simp only [List.map_cons, List.map_nil]
      rw [List.nodup_append]
      refine ⟨hi.1, List.nodup_singleton _, ?_⟩
      intro k hk
      simp only [List.mem_singleton]
      intro he
      subst he
      rw [List.mem_map] at hk
      obtain ⟨q, hq, hqe⟩ := hk
      exact lookup_none_keys hnone2 q hq hqe
    · intro p hp
      rw [List.mem_append] at hp
      rcases hp with hp | hp
      · exact hi.2 p hp
      · rw [List.mem_singleton] at hp
        subst hp
        exact ⟨(hf _).1, (hf _).2⟩

theorem addRouteToVhost_inv {acc : List (hostport × VirtualHost)} {host : String}
    {port : Int} {r : Route} (hi : vhTableInv acc) :
    vhTableInv (addRouteToVhost acc host port r) :=
  vhostUpd_inv hi (fun _ => ⟨rfl, rfl⟩)

theorem addSecretToVhost_inv {acc : List (hostport × VirtualHost)} {host : String}
    {port : Int} {sec : SecretVertex} (hi : vhTableInv acc) :
    vhTableInv (addSecretToVhost acc host port sec) :=
  vhostUpd_inv hi (fun _ => ⟨rfl, rfl⟩)

theorem foldl_pres {σ β : Type} {P : σ → Prop} {step : σ → β → σ}
    (h : ∀ a b, P a → P (step a b)) :
    ∀ (l : List β) (a : σ), P a → P (l.foldl step a) := by
  intro l
  induction l with
  | nil => intro a ha; exact ha
  | cons x t ih => intro a ha; exact ih (step a x) (h a x ha)

theorem processIngress_inv (d : DAGState) (ing : Ingress)
    {acc : List (hostport × VirtualHost)} (hi : vhTableInv acc) :
    vhTableInv (processIngress d acc ing) := by
  unfold processIngress
  apply foldl_pres
  · intro a rule ha
    apply foldl_pres
    · intro a2 p ha2
      dsimp only
      split_ifs <;>
        first
          | exact addRouteToVhost_inv (addRouteToVhost_inv ha2)
          | exact addRouteToVhost_inv ha2
          | exact ha2
    · exact ha
  · apply foldl_pres
    · intro a tls ha
      dsimp only
      split
      · apply foldl_pres
        · intro a2 host ha2
          exact addSecretToVhost_inv ha2
        · exact ha
      · exact ha
    · dsimp only
      split
      · split_ifs <;> first | exact addRouteToVhost_inv hi | exact hi
      · exact hi

theorem processIngressRoute_inv (d : DAGState) (ir : IngressRoute)
    {acc : List (hostport × VirtualHost)} (hi : vhTableInv acc) :
    vhTableInv (processIngressRoute d acc ir) := by
  unfold processIngressRoute
  split
  · exact hi
  · apply foldl_pres
    · intro a route ha
      exact addRouteToVhost_inv ha
    · split
      · split
        · exact addSecretToVhost_inv hi
        · exact hi
      · exact hi

theorem recomputeVhosts_inv (d : DAGState) : vhTableInv (recomputeVhosts d) := by
  unfold recomputeVhosts
  apply foldl_pres
  · intro a p ha
    exact processIngressRoute_inv d p.2 ha
  · apply foldl_pres
    · intro a p ha
      exact processIngress_inv d p.2 ha
    · exact ⟨List.nodup_nil, fun p hp => absurd hp (List.not_mem_nil p)⟩

theorem filterMap_lookup_eq {α β : Type} [DecidableEq α] :
    ∀ {l : List (α × β)}, (l.map Prod.fst).Nodup →
      (l.map Prod.fst).filterMap (fun k => l.lookup k) = l.map Prod.snd := by
  intro l
  induction l with
  | nil => intro _; rfl
  | cons q t ih =>
    obtain ⟨qk, qv⟩ := q
    intro hnd
    simp only [List.map_cons] at hnd ⊢
    rw [List.nodup_cons] at hnd
    rw [List.filterMap_cons]
    have hq : List.lookup qk ((qk, qv) :: t) = some qv := by
      simp [List.lookup]
    rw [hq]
    have hcongr : (t.map Prod.fst).filterMap (fun k => List.lookup k ((qk, qv) :: t)) =
        (t.map Prod.fst).filterMap (fun k => t.lookup k) := by
      apply List.filterMap_congr
      intro k hk
      have hne : k ≠ qk := fun he => hnd.1 (he ▸ hk)
      have hbeq : (k == qk) = false := beq_eq_false_iff_ne.mpr hne
      simp [List.lookup, hbeq]
    rw [hcongr, ih hnd.2]

theorem recomputeRoots_perm (S : DAGState) {order : List hostport}
    (h : List.Perm order (vhostKeys S)) :
    List.Perm (recomputeRoots S order) ((recomputeVhosts S).map Prod.snd) := by
  unfold recomputeRoots
  have hstep := h.filterMap (fun hp => (recomputeVhosts S).lookup hp)
  rw [show vhostKeys S = (recomputeVhosts S).map Prod.fst from rfl] at hstep
  rw [filterMap_lookup_eq (recomputeVhosts_inv S).1] at hstep
  exact hstep

theorem hostport_pair_inj :
    Function.Injective (fun hp : hostport => (strData hp.host, hp.port)) := by
  intro x y h
  obtain ⟨xh, xp⟩ := x
  obtain ⟨yh, yp⟩ := y
  simp only [Prod.mk.injEq] at h
  rw [hostport.mk.injEq]
  exact ⟨strData_inj h.1, h.2⟩

/-- recompute reads `d.services` and `d.secrets` only through keyed
lookups, so any two snapshots agreeing on those lookups — and sharing the
ingress and ingressroute traversals — build the same vhost table. -/
theorem recomputeVhosts_congr (d₁ d₂ : DAGState)
    (hing : d₁.ingresses = d₂.ingresses)
    (hirs : d₁.ingressroutes = d₂.ingressroutes)
    (hsvc : ∀ m, d₁.services.lookup m = d₂.services.lookup m)
    (hsec : ∀ m, d₁.secrets.lookup m = d₂.secrets.lookup m) :
    recomputeVhosts d₁ = recomputeVhosts d₂ := by
  have hls : lookupService d₁ = lookupService d₂ := by
    funext m
    simp only [lookupService, hsvc]
  have hlsec : lookupSecret d₁ = lookupSecret d₂ := by
    funext m
    simp only [lookupSecret, hsec]
  have hrp : resolvePorts d₁ = resolvePorts d₂ := by
    funext ns b
    simp only [resolvePorts, hls]
  have hirsv : irRouteServices d₁ = irRouteServices d₂ := by
    funext ns svcs
    simp only [irRouteServices, hls]
  have hpi : processIngress d₁ = processIngress d₂ := by
    funext acc i
    simp only [processIngress, hrp, hlsec]
  have hpir : processIngressRoute d₁ = processIngressRoute d₂ := by
    funext acc r
    simp only [processIngressRoute, hlsec, hirsv]
  simp only [recomputeVhosts, hing, hirs, hpi, hpir]

/-- C8: corrected — inserting an object o into the cache and then removing
o yields the same cache state, hence the same recompute output, PROVIDED no
object of o's kind was already cached under o's (name, namespace) key;
Insert overwrites by key and remove deletes by key, so the proviso is
necessary. -/
theorem C8_thm (S : DAGState) (o : K8sObject) (h : keyFree S o) :
    (S.Insert o).remove o = S ∧
    ∀ order : List hostport,
      recomputeRoots ((S.Insert o).remove o) order = recomputeRoots S order := by
  have hst : (S.Insert o).remove o = S := by
    cases o with
    | sec s =>
      simp only [DAGState.Insert, DAGState.remove]
      rw [removeKV_putKV _ _ _ h]
    | svc s =>
      simp only [DAGState.Insert, DAGState.remove]
      rw [removeKV_putKV _ _ _ h]
    | ing i =>
      simp only [DAGState.Insert, DAGState.remove]
      rw [removeKV_putKV _ _ _ h]
    | ir r =>
      simp only [DAGState.Insert, DAGState.remove]
      rw [removeKV_putKV _ _ _ h]
  exact ⟨hst, fun order => by rw [hst]⟩

/-- C8 witness: the theorem applied to the empty cache and a fresh
service. -/
theorem C8_witness :
    (((⟨[], [], [], []⟩ : DAGState).Insert (.svc ⟨"s", "d", []⟩)).remove
        (.svc ⟨"s", "d", []⟩)) = (⟨[], [], [], []⟩ : DAGState) :=
  (C8_thm ⟨[], [], [], []⟩ (.svc ⟨"s", "d", []⟩) rfl).1

/-- C8 counterexample: the claim as stated fails when the key is occupied —
`stateWithSvc` caches a ported service; inserting the portless service
under the same key overwrites it and the removal deletes the entry
entirely, so the rebuilt vhost table (and the roots) lose the route's
resolved service. -/
theorem C8_counterexample :
    recomputeVhosts ((stateWithSvc.Insert portlessSvc).remove portlessSvc) ≠
        recomputeVhosts stateWithSvc ∧
    recomputeRoots ((stateWithSvc.Insert portlessSvc).remove portlessSvc) [⟨"*", 80⟩] ≠
      recomputeRoots stateWithSvc [⟨"*", 80⟩] := by
  refine ⟨by decide, by decide⟩

/-- C1: corrected — recompute is deterministic only per traversal. For a
snapshot S whose list orders fix one run's iteration orders of the
ranged-over `d.ingresses` / `d.ingressroutes` maps: (i) every valid
enumeration `order` of the finished vhost table yields the same multiset
of roots, (ii) with the same (host, port)-sorted list, and (iii) the
iteration orders of `d.services` / `d.secrets` are never observable —
permuting those two caches (duplicate-free keys) leaves the vhost table
unchanged, since recompute reads them only by key. Across runs nothing
more holds: with colliding ingresses even the sorted output depends on the
randomized ingress iteration order (see the counterexample). -/
theorem C1_thm (S : DAGState) (order : List hostport)
    (h : List.Perm order (vhostKeys S)) :
    List.Perm (recomputeRoots S order) ((recomputeVhosts S).map Prod.snd) ∧
    sortRoots (recomputeRoots S order) = sortRoots ((recomputeVhosts S).map Prod.snd) ∧
    ∀ sv sc, List.Perm sv S.services → List.Perm sc S.secrets →
      (S.services.map Prod.fst).Nodup → (S.secrets.map Prod.fst).Nodup →
      recomputeVhosts ⟨S.ingresses, S.ingressroutes, sc, sv⟩ = recomputeVhosts S := by
  have hperm := recomputeRoots_perm S h
  refine ⟨hperm, sortRoots_eq_of_perm hperm ?_, ?_⟩
  · have hinv := recomputeVhosts_inv S
    have hmap : ((recomputeVhosts S).map Prod.snd).map vhKey =
        ((recomputeVhosts S).map Prod.fst).map (fun hp => (strData hp.host, hp.port)) := by
      rw [List.map_map, List.map_map]
      apply List.map_congr_left
      intro p hp
      have := hinv.2 p hp
      simp only [Function.comp_apply, vhKey, this.1, this.2]
    rw [hmap]
    exact hinv.1.map hostport_pair_inj
  · intro sv sc hpsv hpsc hndsv hndsc
    have hndsv1 : (sv.map Prod.fst).Nodup := ((hpsv.map Prod.fst).nodup_iff).mpr hndsv
    have hndsc1 : (sc.map Prod.fst).Nodup := ((hpsc.map Prod.fst).nodup_iff).mpr hndsc
    exact recomputeVhosts_congr ⟨S.ingresses, S.ingressroutes, sc, sv⟩ S rfl rfl
      (fun m => lookup_perm hpsv hndsv1 m) (fun m => lookup_perm hpsc hndsc1 m)

/-- C1 witness: the theorem applied to the two-host cache state with the
reversed enumeration of the vhost table, and to the two-service cache
state with its services list reversed. -/
theorem C1_witness :
    (List.Perm (recomputeRoots twoHostState [⟨"b", 80⟩, ⟨"a", 80⟩])
      ((recomputeVhosts twoHostState).map Prod.snd) ∧
     sortRoots (recomputeRoots twoHostState [⟨"b", 80⟩, ⟨"a", 80⟩]) =
      sortRoots ((recomputeVhosts twoHostState).map Prod.snd)) ∧
    recomputeVhosts ⟨twoSvcState.ingresses, twoSvcState.ingressroutes, [],
        [(⟨"svc2", "default"⟩, ⟨"svc2", "default", [⟨"http", 8080⟩]⟩),
         (⟨"svc", "default"⟩, ⟨"svc", "default", [⟨"http", 80⟩]⟩)]⟩ =
      recomputeVhosts twoSvcState := by
  have h1 := C1_thm twoHostState [⟨"b", 80⟩, ⟨"a", 80⟩] (by decide)
  have h2 := C1_thm twoSvcState (vhostKeys twoSvcState) (List.Perm.refl _)
  exact ⟨⟨h1.1, h1.2.1⟩,
    h2.2.2
      [(⟨"svc2", "default"⟩, ⟨"svc2", "default", [⟨"http", 8080⟩]⟩),
       (⟨"svc", "default"⟩, ⟨"svc", "default", [⟨"http", 80⟩]⟩)] []
      (by decide) (by decide) (by decide) (by decide)⟩

/-- C1 counterexample: the claim as stated fails. `collidingStateA` and
`collidingStateB` hold the same ingress-map content under its two possible
iteration orders, yet last-write-wins on `routes["/"]` leaves different
vhost tables, and even the (host, port)-sorted roots differ — the
resource-cache bytes are not a pure function of the snapshot content. And
on the two-host state both enumerations of the unchanged vhost table are
valid root orders, yet they emit the roots in different orders. -/
theorem C1_counterexample :
    List.Perm collidingStateA.ingresses collidingStateB.ingresses ∧
    collidingStateA.ingressroutes = collidingStateB.ingressroutes ∧
    collidingStateA.secrets = collidingStateB.secrets ∧
    collidingStateA.services = collidingStateB.services ∧
    recomputeVhosts collidingStateA ≠ recomputeVhosts collidingStateB ∧
    sortRoots (recomputeRoots collidingStateA (vhostKeys collidingStateA)) ≠
      sortRoots (recomputeRoots collidingStateB (vhostKeys collidingStateB)) ∧
    List.Perm [(⟨"a", 80⟩ : hostport), ⟨"b", 80⟩] (vhostKeys twoHostState) ∧
    List.Perm [(⟨"b", 80⟩ : hostport), ⟨"a", 80⟩] (vhostKeys twoHostState) ∧
    recomputeRoots twoHostState [⟨"a", 80⟩, ⟨"b", 80⟩] ≠
      recomputeRoots twoHostState [⟨"b", 80⟩, ⟨"a", 80⟩] := by
  refine ⟨by decide, by decide, by decide, by decide, by decide, by decide, by decide,
    by decide, by decide⟩

end dag

end Spec2Proof
